import Mathlib

/-!
Verification of the degrees-of-separation ingestion and graph-query engine.

The development shallowly embeds:
* the graph-store operations of `internal/graph/graph.go` (actor upsert, costar-edge
  merge, shortest path, watermark record),
* the TMDB client of `internal/tmdb` (retry loop of `getHTTP`, cast truncation of
  `GetMovieCast`),
* the ingestion driver loop of `cmd/ingest/main.go`.

The graph store is Neo4j; its state is embedded as explicit lists of actor nodes and
relationship records, with the Cypher MERGE semantics of each operation spelled out on
that state.  The unique constraint on `Actor.tmdb_id` installed by `SetupSchema` is
assumed (states with duplicate actor ids are never produced by the embedded operations).
-/

set_option linter.unusedVariables false

namespace Degrees

/-! ### Data model (internal/models/models.go, internal/graph/graph.go) -/

structure Actor where
  tmdbID : Int
  name : String
  deriving DecidableEq, Repr

structure Movie where
  tmdbID : Int
  title : String
  year : Int
  deriving DecidableEq, Repr

/-- One stored `[:COSTARRED]` relationship: Neo4j relationships are directed, the
direction being the (a)-->(b) orientation used when the edge was merged. -/
structure CostarEdge where
  src : Int
  dst : Int
  movieID : Int
  title : String
  year : Int
  deriving DecidableEq, Repr

structure PathStep where
  actor : Option Actor
  movieTitle : String
  movieYear : Int
  deriving DecidableEq, Repr

/-- The graph-store state: actor nodes, costar relationships, and the single ingestion
watermark record (`none` when no page has ever completed). -/
structure GraphState where
  actors : List Actor
  edges : List CostarEdge
  lastPage : Option Nat
  deriving DecidableEq, Repr

def emptyGraph : GraphState := ⟨[], [], none⟩

def actorExists (g : GraphState) (id : Int) : Bool :=
  g.actors.any (fun a => a.tmdbID == id)

/-- Cypher `MERGE (a:Actor {tmdb_id: $id}) SET a.name = $name` of `UpsertActor`
(graph.go lines 76-89): create the node if absent, otherwise overwrite its name. -/
def UpsertActor (g : GraphState) (id : Int) (name : String) : GraphState :=
  if g.actors.any (fun a => a.tmdbID == id) then
    { g with actors := g.actors.map (fun a => if a.tmdbID == id then { a with name := name } else a) }
  else
    { g with actors := g.actors ++ [⟨id, name⟩] }

def edgeMatches (e : CostarEdge) (a b movieID : Int) : Bool :=
  e.src == a && e.dst == b && e.movieID == movieID

/-- Cypher of `CreateCostarEdge` (graph.go lines 91-113):
`MATCH (a {tmdb_id: $idA}), (b {tmdb_id: $idB})
 MERGE (a)-[r:COSTARRED {tmdb_movie_id: $movieID}]->(b)
 SET r.movie_title = $title, r.year = $year`.
If either actor is missing the MATCH produces no row and nothing happens.  The MERGE
pattern is directed, so only a relationship stored with the same (src, dst) orientation
and the same movie id is matched; otherwise a new relationship is created.  SET runs in
both cases. -/
def CreateCostarEdge (g : GraphState) (actorA actorB movieID year : Int) (title : String) : GraphState :=
  if g.actors.any (fun x => x.tmdbID == actorA) && g.actors.any (fun x => x.tmdbID == actorB) then
    if g.edges.any (fun e => edgeMatches e actorA actorB movieID) then
      { g with edges := g.edges.map (fun e =>
          if edgeMatches e actorA actorB movieID then { e with title := title, year := year } else e) }
    else
      { g with edges := g.edges ++ [⟨actorA, actorB, movieID, title, year⟩] }
  else g

/-- Modelled from the spec: `GetLastIngestedPage` (called by cmd/ingest/main.go and by
the integration tests, implementation not among the sources) reads the single durable
watermark record and returns 0 when none has ever been written. -/
def GetLastIngestedPage (g : GraphState) : Nat :=
  g.lastPage.getD 0

/-- Modelled from the spec: `SetLastIngestedPage` (implementation not among the sources)
overwrites the single watermark record, last-write-wins. -/
def SetLastIngestedPage (g : GraphState) (page : Nat) : GraphState :=
  { g with lastPage := some page }

/-! ### TMDB client (src/unnamed/part_005) -/

structure CastResult where
  id : Int
  name : String
  deriving DecidableEq, Repr

/-- Outcome of one `c.HTTPClient.Do(req)` call, as seen by `getHTTP`. -/
inductive HTTPAttempt where
  | response (status : Nat)
  | transportError
  deriving DecidableEq, Repr

inductive FetchErr where
  | throttleExhausted
  | transport
  deriving DecidableEq, Repr

inductive FetchResult where
  | ok (status : Nat)
  | err (e : FetchErr)
  deriving DecidableEq, Repr

/-- Result of a `getHTTP` call together with the number of HTTP requests that were made
and the backoff durations slept, in order. -/
structure FetchTrace where
  result : FetchResult
  attempts : Nat
  sleeps : List Nat
  deriving DecidableEq, Repr

/-- The retry loop of `getHTTP` (part_005 lines 123-156), with the provider's reply to
each attempt given by `resp`.  The limiter wait succeeds (no cancellation is raised in
the scenarios modelled), a transport error returns immediately, a non-429 status returns
the response with a nil error, and a 429 closes the body, sleeps `BaseBackoff << attempt`
and iterates; `remaining` counts the loop iterations left out of `MaxRetries`. -/
def getHTTPAux (resp : Nat → HTTPAttempt) (base : Nat) : Nat → Nat → List Nat → FetchTrace
  | attempt, 0, sleeps => ⟨.err .throttleExhausted, attempt, sleeps⟩
  | attempt, remaining + 1, sleeps =>
    match resp attempt with
    | .transportError => ⟨.err .transport, attempt + 1, sleeps⟩
    | .response st =>
      if st == 429 then
        getHTTPAux resp base (attempt + 1) remaining (sleeps ++ [base <<< attempt])
      else ⟨.ok st, attempt + 1, sleeps⟩

def getHTTP (resp : Nat → HTTPAttempt) (maxRetries base : Nat) : FetchTrace :=
  getHTTPAux resp base 0 maxRetries []

def castToActor (c : CastResult) : Actor := ⟨c.id, c.name⟩

/-- Cast truncation of `GetMovieCast` (part_005 lines 102-111), after a successful fetch
and decode of `cast`: Go clamps `maxCast` down to `len(apiResp.Cast)`, then runs
`make([]models.Actor, maxCast)` followed by a copy of `apiResp.Cast[:maxCast]`; `make`
with a negative length panics, which `none` models. -/
def GetMovieCast (cast : List CastResult) (maxCast : Int) : Option (List Actor) :=
  let m := if maxCast > (cast.length : Int) then (cast.length : Int) else maxCast
  if m < 0 then none
  else some ((cast.take m.toNat).map castToActor)

/-! ### Lemmas about the getHTTP retry loop -/

theorem getHTTPAux_allThrottle (resp : Nat → HTTPAttempt) (base : Nat)
    (hall : ∀ i, resp i = .response 429) :
    ∀ remaining attempt sleeps, getHTTPAux resp base attempt remaining sleeps =
      ⟨.err .throttleExhausted, attempt + remaining,
        sleeps ++ (List.range remaining).map (fun i => base <<< (attempt + i))⟩ := by
  intro remaining
  induction remaining with
  | zero => intro attempt sleeps; simp [getHTTPAux]
  | succ r ih =>
    intro attempt sleeps
    rw [getHTTPAux, hall attempt]
    simp only [beq_self_eq_true, if_true]
    rw [ih (attempt + 1) (sleeps ++ [base <<< attempt])]
    have hatt : attempt + 1 + r = attempt + (r + 1) := by omega
    have hsl : sleeps ++ [base <<< attempt] ++ (List.range r).map (fun i => base <<< (attempt + 1 + i))
        = sleeps ++ (List.range (r + 1)).map (fun i => base <<< (attempt + i)) := by
      rw [List.range_succ_eq_map]
      simp only [List.map_cons, List.map_map, List.append_assoc, List.singleton_append,
        Nat.add_zero]
      refine congrArg _ (congrArg₂ _ rfl ?_)
      refine List.map_congr_left (fun i hi => ?_)
      simp only [Function.comp_apply, Nat.succ_eq_add_one]
      exact congrArg (fun n => base <<< n) (by omega)
    rw [hatt, hsl]

theorem getHTTPAux_firstSuccess (resp : Nat → HTTPAttempt) (base st : Nat) (hst : st ≠ 429) :
    ∀ j remaining attempt sleeps, j < remaining →
      (∀ i, i < j → resp (attempt + i) = .response 429) →
      resp (attempt + j) = .response st →
      getHTTPAux resp base attempt remaining sleeps =
        ⟨.ok st, attempt + j + 1,
          sleeps ++ (List.range j).map (fun i => base <<< (attempt + i))⟩ := by
  intro j
  induction j with
  | zero =>
    intro remaining attempt sleeps hlt hbefore hj
    obtain ⟨r, rfl⟩ : ∃ r, remaining = r + 1 := ⟨remaining - 1, by omega⟩
    rw [getHTTPAux]
    rw [show attempt + 0 = attempt from rfl] at hj
    rw [hj]
    have : (st == 429) = false := by simp [hst]
    simp [this]
  | succ j ih =>
    intro remaining attempt sleeps hlt hbefore hj
    obtain ⟨r, rfl⟩ : ∃ r, remaining = r + 1 := ⟨remaining - 1, by omega⟩
    rw [getHTTPAux]
    have h0 : resp attempt = .response 429 := by
      have := hbefore 0 (Nat.succ_pos j)
      simpa using this
    rw [h0]
    simp only [beq_self_eq_true, if_true]
    rw [ih r (attempt + 1) (sleeps ++ [base <<< attempt]) (by omega)
      (fun i hi => by
        have := hbefore (i + 1) (by omega)
        simpa [Nat.add_assoc, Nat.add_comm 1 i] using this)
      (by
        have : attempt + 1 + j = attempt + (j + 1) := by omega
        rw [this]; exact hj)]
    have hatt : attempt + 1 + j + 1 = attempt + (j + 1) + 1 := by omega
    have hsl : sleeps ++ [base <<< attempt] ++ (List.range j).map (fun i => base <<< (attempt + 1 + i))
        = sleeps ++ (List.range (j + 1)).map (fun i => base <<< (attempt + i)) := by
      rw [List.range_succ_eq_map]
      simp only [List.map_cons, List.map_map, List.append_assoc, List.singleton_append,
        Nat.add_zero]
      refine congrArg _ (congrArg₂ _ rfl ?_)
      refine List.map_congr_left (fun i hi => ?_)
      simp only [Function.comp_apply, Nat.succ_eq_add_one]
      exact congrArg (fun n => base <<< n) (by omega)
    rw [hatt, hsl]

/-! ### Claim theorems: TMDB client -/

/-- C3: with MaxRetries = 3, a fetch throttled on the first two attempts and successful
on the third succeeds after exactly 3 attempts; a fetch whose provider always throttles
makes exactly MaxRetries attempts, sleeping BaseBackoff <<< attempt between consecutive
attempts i and i+1, and fails with ThrottleExhausted. -/
theorem c3_throttle_retry (resp respT : Nat → HTTPAttempt) (base mr st : Nat)
    (h0 : resp 0 = .response 429) (h1 : resp 1 = .response 429)
    (h2 : resp 2 = .response st) (hst : st ≠ 429)
    (hall : ∀ i, respT i = .response 429) :
    ((getHTTP resp 3 base).result = .ok st ∧ (getHTTP resp 3 base).attempts = 3)
    ∧ ((getHTTP respT mr base).attempts = mr
      ∧ (getHTTP respT mr base).result = .err .throttleExhausted
      ∧ ∀ i, i + 1 < mr → (getHTTP respT mr base).sleeps.get? i = some (base <<< i)) := by
  constructor
  · have := getHTTPAux_firstSuccess resp base st hst 2 3 0 [] (by omega)
      (fun i hi => by interval_cases i <;> simpa)
      (by simpa using h2)
    rw [getHTTP, this]
    simp
  · have := getHTTPAux_allThrottle respT base hall mr 0 []
    rw [getHTTP, this]
    refine ⟨by simp, rfl, fun i hi => ?_⟩
    simp only [List.nil_append]
    rw [List.get?_map, List.get?_range (by omega)]
    simp

/-- C3 witness: the two scenarios instantiated with concrete providers, MaxRetries = 3
and BaseBackoff = 7. -/
theorem c3_throttle_retry_witness :
    ((getHTTP (fun i => if i < 2 then .response 429 else .response 200) 3 7).result = .ok 200
      ∧ (getHTTP (fun i => if i < 2 then .response 429 else .response 200) 3 7).attempts = 3)
    ∧ ((getHTTP (fun _ => .response 429) 3 7).attempts = 3
      ∧ (getHTTP (fun _ => .response 429) 3 7).result = .err .throttleExhausted
      ∧ ∀ i, i + 1 < 3 → (getHTTP (fun _ => .response 429) 3 7).sleeps.get? i = some (7 <<< i)) :=
  c3_throttle_retry (fun i => if i < 2 then .response 429 else .response 200)
    (fun _ => .response 429) 7 3 200 rfl rfl rfl (by decide) (fun i => rfl)

/-- C9: an HTTP response with any status other than 429 — including 4xx and 5xx — is
returned by getHTTP with a nil error on the attempt that received it, with no further
retries; getHTTP itself never reports such a response as an error. -/
theorem c9_non_throttle_not_retried (resp : Nat → HTTPAttempt) (mr base j st : Nat)
    (hj : j < mr) (hjr : resp j = .response st) (hst : st ≠ 429)
    (hbefore : ∀ i, i < j → resp i = .response 429) :
    (getHTTP resp mr base).result = .ok st ∧ (getHTTP resp mr base).attempts = j + 1 := by
  have := getHTTPAux_firstSuccess resp base st hst j mr 0 [] hj
    (fun i hi => by simpa using hbefore i hi) (by simpa using hjr)
  rw [getHTTP, this]
  exact ⟨rfl, by simp⟩

/-- C9 witness: a 500 Internal Server Error response on the first attempt is returned
at once, with no retry and no error from getHTTP. -/
theorem c9_non_throttle_not_retried_witness :
    (getHTTP (fun _ => .response 500) 3 7).result = .ok 500
    ∧ (getHTTP (fun _ => .response 500) 3 7).attempts = 0 + 1 :=
  c9_non_throttle_not_retried (fun _ => .response 500) 3 7 0 500 (by decide) rfl (by decide)
    (fun i hi => absurd hi (Nat.not_lt_zero i))

/-- C8: for a successful credits response with cast list `cast` and a requested
non-negative cap `maxCount`: if the cast is smaller than the cap, all of it is returned
without error; otherwise exactly the first `maxCount` members are returned, in the
provider's order. -/
theorem getMovieCast_eq_take (cast : List CastResult) (m : Int) (hm : 0 ≤ m) :
    GetMovieCast cast m = some ((cast.take m.toNat).map castToActor) := by
  rw [GetMovieCast]
  by_cases hA : (cast.length : Int) < m
  · simp only [gt_iff_lt, if_pos hA]
    rw [if_neg (by omega)]
    simp only [Int.toNat_natCast, List.take_length]
    rw [List.take_of_length_le (by omega)]
  · simp only [gt_iff_lt, if_neg hA]
    rw [if_neg (by omega)]

theorem c8_truncation (cast : List CastResult) (maxCount : Int) (h : 0 ≤ maxCount) :
    ((cast.length : Int) < maxCount → GetMovieCast cast maxCount = some (cast.map castToActor))
    ∧ (maxCount ≤ (cast.length : Int) →
        GetMovieCast cast maxCount = some ((cast.take maxCount.toNat).map castToActor)) := by
  constructor
  · intro hlt
    rw [getMovieCast_eq_take cast maxCount h, List.take_of_length_le (by omega)]
  · intro hle
    exact getMovieCast_eq_take cast maxCount h

/-- C8 witness: a cast of two truncated with cap 5 (all returned) and cap 1 (first
member only). -/
theorem c8_truncation_witness :
    (((([⟨1, "A"⟩, ⟨2, "B"⟩] : List CastResult).length : Int) < 5 →
        GetMovieCast [⟨1, "A"⟩, ⟨2, "B"⟩] 5 = some ([⟨1, "A"⟩, ⟨2, "B"⟩].map castToActor))
      ∧ ((5 : Int) ≤ (([⟨1, "A"⟩, ⟨2, "B"⟩] : List CastResult).length : Int) →
        GetMovieCast [⟨1, "A"⟩, ⟨2, "B"⟩] 5 =
          some ((([⟨1, "A"⟩, ⟨2, "B"⟩] : List CastResult).take (5 : Int).toNat).map castToActor)))
    ∧ (((([⟨1, "A"⟩, ⟨2, "B"⟩] : List CastResult).length : Int) < 1 →
        GetMovieCast [⟨1, "A"⟩, ⟨2, "B"⟩] 1 = some ([⟨1, "A"⟩, ⟨2, "B"⟩].map castToActor))
      ∧ ((1 : Int) ≤ (([⟨1, "A"⟩, ⟨2, "B"⟩] : List CastResult).length : Int) →
        GetMovieCast [⟨1, "A"⟩, ⟨2, "B"⟩] 1 =
          some ((([⟨1, "A"⟩, ⟨2, "B"⟩] : List CastResult).take (1 : Int).toNat).map castToActor))) :=
  ⟨c8_truncation [⟨1, "A"⟩, ⟨2, "B"⟩] 5 (by decide),
   c8_truncation [⟨1, "A"⟩, ⟨2, "B"⟩] 1 (by decide)⟩

/-- C10: GetMovieCast is panic-free exactly under maxCast ≥ 0: with a non-negative cap
it returns exactly min(maxCast, k) actors for a k-member cast and never panics, while
any negative cap makes the `make([]models.Actor, maxCast)` allocation panic on every
decodable response. -/
theorem c10_negative_maxcast_panics :
    (∀ (cast : List CastResult) (m : Int), 0 ≤ m →
      ∃ l, GetMovieCast cast m = some l ∧ l.length = min m.toNat cast.length)
    ∧ (∀ (cast : List CastResult) (m : Int), m < 0 → GetMovieCast cast m = none) := by
  constructor
  · intro cast m hm
    refine ⟨(cast.take m.toNat).map castToActor, getMovieCast_eq_take cast m hm, ?_⟩
    rw [List.length_map, List.length_take]
  · intro cast m hm
    rw [GetMovieCast]
    have hA : ¬ ((cast.length : Int) < m) := by omega
    simp only [gt_iff_lt, if_neg hA]
    rw [if_pos (by omega)]

/-! ### Costar-edge idempotency (C2) -/

/-- True when relationship `e` connects `u` and `v` in either stored orientation. -/
def edgeConnects (e : CostarEdge) (u v : Int) : Bool :=
  (e.src == u && e.dst == v) || (e.src == v && e.dst == u)

def edgeForPair (e : CostarEdge) (a b movieID : Int) : Bool :=
  edgeConnects e a b && e.movieID == movieID

/-- Number of stored relationship instances for the unordered pair of `a` and `b` and
the given production. -/
def countCostarEdges (g : GraphState) (a b movieID : Int) : Nat :=
  (g.edges.filter (fun e => edgeForPair e a b movieID)).length

/-- A sequence of CreateCostarEdge calls for one (actorA, actorB, production) argument
triple, each call carrying its own title and year. -/
def applyCostarCalls (g : GraphState) (a b movieID : Int) : List (String × Int) → GraphState
  | [] => g
  | (t, y) :: rest => applyCostarCalls (CreateCostarEdge g a b movieID y t) a b movieID rest

def gTwoActors : GraphState := ⟨[⟨1, "Brad Pitt"⟩, ⟨2, "Edward Norton"⟩], [], none⟩

theorem edgeMatches_connects {e : CostarEdge} {a b m : Int}
    (h : edgeMatches e a b m = true) : edgeForPair e a b m = true := by
  rw [edgeMatches] at h
  rw [edgeForPair, edgeConnects]
  simp only [Bool.and_eq_true, Bool.or_eq_true] at h ⊢
  exact ⟨Or.inl ⟨h.1.1, h.1.2⟩, h.2⟩

theorem createCostarEdge_fresh (g : GraphState) (a b m y : Int) (t : String)
    (ha : g.actors.any (fun x => x.tmdbID == a) = true)
    (hb : g.actors.any (fun x => x.tmdbID == b) = true)
    (hclean : ∀ e ∈ g.edges, edgeMatches e a b m = false) :
    CreateCostarEdge g a b m y t = { g with edges := g.edges ++ [⟨a, b, m, t, y⟩] } := by
  rw [CreateCostarEdge, if_pos (by rw [ha, hb]; rfl)]
  rw [if_neg]
  simp only [List.any_eq_true, not_exists]
  intro e
  rintro ⟨he, hm⟩
  rw [hclean e he] at hm
  cases hm

theorem createCostarEdge_overwrite (g : GraphState) (a b m y₀ y : Int) (t₀ t : String)
    (ha : g.actors.any (fun x => x.tmdbID == a) = true)
    (hb : g.actors.any (fun x => x.tmdbID == b) = true)
    (hclean : ∀ e ∈ g.edges, edgeMatches e a b m = false) :
    CreateCostarEdge { g with edges := g.edges ++ [⟨a, b, m, t₀, y₀⟩] } a b m y t
      = { g with edges := g.edges ++ [⟨a, b, m, t, y⟩] } := by
  have hself : edgeMatches ⟨a, b, m, t₀, y₀⟩ a b m = true := by
    rw [edgeMatches]; simp
  rw [CreateCostarEdge, if_pos (by rw [ha, hb]; rfl)]
  rw [if_pos]
  · have h1 : g.edges.map (fun e =>
        if edgeMatches e a b m then { e with title := t, year := y } else e) = g.edges := by
      conv_rhs => rw [← List.map_id g.edges]
      refine List.map_congr_left (fun e he => ?_)
      rw [hclean e he]
      simp
    simp only [List.map_append, h1]
    simp [hself]
  · simp only [List.any_eq_true]
    exact ⟨⟨a, b, m, t₀, y₀⟩, by simp, hself⟩

theorem applyCostarCalls_run (g : GraphState) (a b m : Int)
    (ha : g.actors.any (fun x => x.tmdbID == a) = true)
    (hb : g.actors.any (fun x => x.tmdbID == b) = true)
    (hclean : ∀ e ∈ g.edges, edgeMatches e a b m = false) :
    ∀ (calls : List (String × Int)) (t₀ : String) (y₀ : Int),
      applyCostarCalls { g with edges := g.edges ++ [⟨a, b, m, t₀, y₀⟩] } a b m calls
        = { g with edges := g.edges ++ [⟨a, b, m, (calls.foldl (fun _ c => c) (t₀, y₀)).1,
            (calls.foldl (fun _ c => c) (t₀, y₀)).2⟩] } := by
  intro calls
  induction calls with
  | nil => intro t₀ y₀; rfl
  | cons c rest ih =>
    intro t₀ y₀
    obtain ⟨t, y⟩ := c
    show applyCostarCalls
      (CreateCostarEdge { g with edges := g.edges ++ [⟨a, b, m, t₀, y₀⟩] } a b m y t) a b m rest = _
    rw [createCostarEdge_overwrite g a b m y₀ y t₀ t ha hb hclean]
    rw [ih t y]
    rfl

/-- C2 counterexample: with two existing actors 1 and 2, calling CreateCostarEdge for
the unordered pair and production 550 once as (1, 2) and once as (2, 1) leaves two
parallel relationship instances for the triple, not exactly one: the directed MERGE
pattern does not match the oppositely-oriented edge. -/
theorem c2_counterexample :
    countCostarEdges
      (CreateCostarEdge (CreateCostarEdge gTwoActors 1 2 550 1999 "Fight Club")
        2 1 550 1999 "Fight Club") 1 2 550 = 2
    ∧ (2 : Nat) ≠ 1 := by
  constructor
  · rfl
  · decide

/-- C2 (amended): for calls that pass the two person identifiers in one consistent
order, any nonempty sequence of CreateCostarEdge calls for the triple leaves exactly one
relationship instance for the unordered pair and production, whose title and year are
those of the last call, and no call creates a duplicate parallel edge; a call with the
identifiers reversed, however, creates a second parallel edge (see the counterexample). -/
theorem c2_same_order_idempotent (g : GraphState) (a b m : Int)
    (more : List (String × Int)) (t : String) (y : Int)
    (ha : g.actors.any (fun x => x.tmdbID == a) = true)
    (hb : g.actors.any (fun x => x.tmdbID == b) = true)
    (hclean : ∀ e ∈ g.edges, edgeForPair e a b m = false) :
    applyCostarCalls g a b m (more ++ [(t, y)])
      = { g with edges := g.edges ++ [⟨a, b, m, t, y⟩] }
    ∧ countCostarEdges (applyCostarCalls g a b m (more ++ [(t, y)])) a b m = 1 := by
  have hcleanM : ∀ e ∈ g.edges, edgeMatches e a b m = false := by
    intro e he
    by_contra hne
    have : edgeMatches e a b m = true := by
      cases hme : edgeMatches e a b m
      · exact absurd hme hne
      · rfl
    have := edgeMatches_connects this
    rw [hclean e he] at this
    cases this
  have hmain : applyCostarCalls g a b m (more ++ [(t, y)])
      = { g with edges := g.edges ++ [⟨a, b, m, t, y⟩] } := by
    cases more with
    | nil =>
      show applyCostarCalls (CreateCostarEdge g a b m y t) a b m [] = _
      rw [createCostarEdge_fresh g a b m y t ha hb hcleanM]
      rfl
    | cons c rest =>
      obtain ⟨t₁, y₁⟩ := c
      show applyCostarCalls (CreateCostarEdge g a b m y₁ t₁) a b m (rest ++ [(t, y)]) = _
      rw [createCostarEdge_fresh g a b m y₁ t₁ ha hb hcleanM]
      rw [applyCostarCalls_run g a b m ha hb hcleanM (rest ++ [(t, y)]) t₁ y₁]
      rw [List.foldl_append]
      rfl
  refine ⟨hmain, ?_⟩
  rw [hmain, countCostarEdges]
  show ((g.edges ++ [(⟨a, b, m, t, y⟩ : CostarEdge)]).filter (fun e => edgeForPair e a b m)).length = 1
  rw [List.filter_append]
  have h1 : g.edges.filter (fun e => edgeForPair e a b m) = [] := by
    rw [List.filter_eq_nil_iff]
    intro e he
    rw [hclean e he]
    decide
  rw [h1]
  have h2 : edgeForPair ⟨a, b, m, t, y⟩ a b m = true := by
    rw [edgeForPair, edgeConnects]
    simp
  simp [h2]

/-- C2 witness for the amended theorem: two same-order calls on a fresh pair collapse to
one edge carrying the attributes of the second call. -/
theorem c2_same_order_idempotent_witness :
    applyCostarCalls gTwoActors 1 2 550 ([("Fight Club", 1998)] ++ [("Fight Club", 1999)])
      = { gTwoActors with edges := gTwoActors.edges ++ [⟨1, 2, 550, "Fight Club", 1999⟩] }
    ∧ countCostarEdges
        (applyCostarCalls gTwoActors 1 2 550 ([("Fight Club", 1998)] ++ [("Fight Club", 1999)]))
        1 2 550 = 1 :=
  c2_same_order_idempotent gTwoActors 1 2 550 [("Fight Club", 1998)] "Fight Club" 1999
    rfl rfl (fun e he => absurd he (by simp [gTwoActors]))

/-- C10 witness: cap 1 on a two-member cast returns one actor; cap -1 panics. -/
theorem c10_negative_maxcast_panics_witness :
    (∃ l, GetMovieCast [⟨1, "A"⟩, ⟨2, "B"⟩] 1 = some l
      ∧ l.length = min (1 : Int).toNat ([⟨1, "A"⟩, ⟨2, "B"⟩] : List CastResult).length)
    ∧ GetMovieCast [⟨1, "A"⟩, ⟨2, "B"⟩] (-1) = none :=
  ⟨c10_negative_maxcast_panics.1 [⟨1, "A"⟩, ⟨2, "B"⟩] 1 (by decide),
   c10_negative_maxcast_panics.2 [⟨1, "A"⟩, ⟨2, "B"⟩] (-1) (by decide)⟩

/-! ### Shortest path (graph.go ShortestPath, lines 115-157) -/

def neighborOf (u : Int) (e : CostarEdge) : Option Int :=
  if e.src == u then some e.dst else if e.dst == u then some e.src else none

def neighbors (g : GraphState) (u : Int) : List Int :=
  g.edges.filterMap (neighborOf u)

def adjacent (g : GraphState) (u v : Int) : Bool :=
  g.edges.any (fun e => edgeConnects e u v)

/-- Partial traversal paths are held in reverse: the head is the node reached last. -/
def extendPath (g : GraphState) (p : List Int) : List (List Int) :=
  match p with
  | [] => []
  | u :: _ => ((neighbors g u).filter (fun v => !(p.contains v))).map (fun v => v :: p)

def levelNext (g : GraphState) (lvl : List (List Int)) : List (List Int) :=
  lvl.flatMap (extendPath g)

/-- All simple traversal paths of exactly `k` hops starting at `a`, in reverse form. -/
def levels (g : GraphState) (a : Int) : Nat → List (List Int)
  | 0 => [[a]]
  | k + 1 => levelNext g (levels g a k)

def findAtLevel (b : Int) (lvl : List (List Int)) : Option (List Int) :=
  lvl.find? (fun p => p.head? == some b)

def searchLevels (g : GraphState) (b : Int) : Nat → List (List Int) → Option (List Int)
  | 0, _ => none
  | fuel + 1, lvl =>
    match findAtLevel b lvl with
    | some p => some p.reverse
    | none => searchLevels g b fuel (levelNext g lvl)

def searchFuel (g : GraphState) : Nat := g.actors.length + 2 * g.edges.length + 1

/-- Neo4j `shortestPath((a)-[:COSTARRED*]-(b))` over the undirected view of the stored
relationships: breadth-first enumeration of simple traversal paths from `a` in
increasing hop count, returning the first path that reaches `b`. -/
def shortestPathNodes (g : GraphState) (a b : Int) : Option (List Int) :=
  searchLevels g b (searchFuel g) [[a]]

def actorName (g : GraphState) (id : Int) : String :=
  match g.actors.find? (fun a => a.tmdbID == id) with
  | some a => a.name
  | none => ""

def stepOfNode (g : GraphState) (u : Int) : PathStep := ⟨some ⟨u, actorName g u⟩, "", 0⟩

def edgeBetween (g : GraphState) (u v : Int) : Option CostarEdge :=
  g.edges.find? (fun e => edgeConnects e u v)

def stepOfEdge (g : GraphState) (u v : Int) : PathStep :=
  match edgeBetween g u v with
  | some e => ⟨none, e.title, e.year⟩
  | none => ⟨none, "", 0⟩

/-- The interleaving loop of ShortestPath (graph.go lines 141-154): emit each actor of
nodes(p) in order, and after actor i the relationship between nodes i and i+1 while one
remains. -/
def buildSteps (g : GraphState) : List Int → List PathStep
  | [] => []
  | [u] => [stepOfNode g u]
  | u :: v :: rest => stepOfNode g u :: stepOfEdge g u v :: buildSteps g (v :: rest)

inductive GraphErr where
  | storeFailure
  deriving DecidableEq, Repr

/-- `ShortestPath` (graph.go lines 115-157): MATCH both actor nodes and a shortestPath
between them.  Zero rows — a missing actor or no connecting path — make
`result.Single` fail, which the Go code maps to `return nil, nil`: an empty step list
with a nil error.  The `.err` case models a store failure of `session.Run`, which the
embedded store never produces. -/
def ShortestPath (g : GraphState) (a b : Int) : Except GraphErr (List PathStep) :=
  if actorExists g a && actorExists g b then
    match shortestPathNodes g a b with
    | some vs => .ok (buildSteps g vs)
    | none => .ok []
  else .ok []

/-- Forward step relation: one undirected hop along a stored relationship. -/
def stepRel (g : GraphState) (u v : Int) : Prop := adjacent g u v = true

/-- Step relation on reversed paths. -/
def revStepRel (g : GraphState) (u v : Int) : Prop := adjacent g v u = true

/-- A walk in the undirected costar graph from `a` to `b` along `vs`. -/
def WalkFromTo (g : GraphState) (a b : Int) (vs : List Int) : Prop :=
  vs.head? = some a ∧ vs.getLast? = some b ∧ List.Chain' (stepRel g) vs

def alternatingSteps : List PathStep → Bool
  | [] => true
  | [s] => s.actor.isSome
  | s :: s₂ :: rest => s.actor.isSome && !s₂.actor.isSome && alternatingSteps rest

def endpoints : List CostarEdge → List Int
  | [] => []
  | e :: es => e.src :: e.dst :: endpoints es

/-- The three-actor chain of the integration tests: A and B costar in Movie One, B and
C in Movie Two. -/
def exampleChain : GraphState :=
  CreateCostarEdge
    (CreateCostarEdge
      (UpsertActor (UpsertActor (UpsertActor emptyGraph 1 "Actor A") 2 "Actor B") 3 "Actor C")
      1 2 100 2000 "Movie One")
    2 3 200 2010 "Movie Two"

/-! ### Lemmas about the shortest-path traversal -/

theorem mem_neighbors {g : GraphState} {u v : Int} :
    v ∈ neighbors g u ↔ adjacent g u v = true := by
  rw [neighbors, adjacent, List.mem_filterMap, List.any_eq_true]
  constructor
  · rintro ⟨e, he, hne⟩
    refine ⟨e, he, ?_⟩
    rw [neighborOf] at hne
    rw [edgeConnects]
    by_cases h1 : e.src = u
    · rw [if_pos (by simp [h1])] at hne
      simp only [Option.some.injEq] at hne
      simp [h1, hne]
    · rw [if_neg (by simp [h1])] at hne
      by_cases h2 : e.dst = u
      · rw [if_pos (by simp [h2])] at hne
        simp only [Option.some.injEq] at hne
        simp [h2, hne]
      · rw [if_neg (by simp [h2])] at hne
        cases hne
  · rintro ⟨e, he, hc⟩
    refine ⟨e, he, ?_⟩
    rw [edgeConnects] at hc
    simp only [Bool.or_eq_true, Bool.and_eq_true, beq_iff_eq] at hc
    rw [neighborOf]
    rcases hc with ⟨h1, h2⟩ | ⟨h1, h2⟩
    · rw [if_pos (by simp [h1]), h2]
    · by_cases hs : e.src = u
      · rw [if_pos (by simp [hs])]
        rw [hs] at h1
        rw [h2, ← h1]
      · rw [if_neg (by simp [hs]), if_pos (by simp [h2]), h1]

theorem adjacent_comm (g : GraphState) (u v : Int) : adjacent g u v = adjacent g v u := by
  rw [adjacent, adjacent]
  refine congrArg (List.any g.edges) ?_
  funext e
  rw [edgeConnects, edgeConnects]
  exact Bool.or_comm _ _

theorem levels_sound {g : GraphState} {a : Int} :
    ∀ k p, p ∈ levels g a k →
      p.length = k + 1 ∧ p.Nodup ∧ p.getLast? = some a ∧ List.Chain' (revStepRel g) p := by
  intro k
  induction k with
  | zero =>
    intro p hp
    rw [levels] at hp
    simp only [List.mem_singleton] at hp
    subst hp
    exact ⟨rfl, List.nodup_singleton a, rfl, List.chain'_singleton a⟩
  | succ k ih =>
    intro p hp
    rw [levels, levelNext, List.mem_flatMap] at hp
    obtain ⟨q, hq, hpq⟩ := hp
    obtain ⟨hlen, hnd, hlast, hchain⟩ := ih q hq
    match q, hpq with
    | u :: rest, hpq =>
      rw [extendPath] at hpq
      simp only [List.mem_map, List.mem_filter, Bool.not_eq_true'] at hpq
      obtain ⟨v, ⟨hv, hvc⟩, rfl⟩ := hpq
      have hvnot : v ∉ u :: rest := by
        intro hmem
        have h1 : (u :: rest).contains v = true := List.elem_iff.mpr hmem
        rw [h1] at hvc
        cases hvc
      refine ⟨by simpa using hlen, List.nodup_cons.mpr ⟨hvnot, hnd⟩, ?_, ?_⟩
      · rw [List.getLast?_cons_cons]
        exact hlast
      · refine List.chain'_cons.mpr ⟨?_, hchain⟩
        show adjacent g u v = true
        exact mem_neighbors.mp hv

theorem levels_complete {g : GraphState} {a : Int} :
    ∀ p, p.Nodup → p.getLast? = some a → List.Chain' (revStepRel g) p →
      ∀ h : p ≠ [], p ∈ levels g a (p.length - 1) := by
  intro p
  induction p with
  | nil => intro _ _ _ h; exact absurd rfl h
  | cons v rest ih =>
    intro hnd hlast hchain _
    cases rest with
    | nil =>
      simp only [List.getLast?_singleton, Option.some.injEq] at hlast
      subst hlast
      show [v] ∈ levels g v 0
      exact List.mem_singleton.mpr rfl
    | cons u rest' =>
      have htail : (u :: rest') ∈ levels g a ((u :: rest').length - 1) := by
        refine ih (List.nodup_cons.mp hnd).2 ?_ (List.chain'_cons.mp hchain).2 (by simp)
        rw [List.getLast?_cons_cons] at hlast
        exact hlast
      have hstep : (v :: u :: rest').length - 1 = ((u :: rest').length - 1) + 1 := by
        simp
      rw [hstep, levels, levelNext, List.mem_flatMap]
      refine ⟨u :: rest', htail, ?_⟩
      rw [extendPath]
      simp only [List.mem_map, List.mem_filter, Bool.not_eq_true']
      refine ⟨v, ⟨?_, ?_⟩, rfl⟩
      · rw [mem_neighbors]
        exact (List.chain'_cons.mp hchain).1
      · have hnm : v ∉ u :: rest' := (List.nodup_cons.mp hnd).1
        cases hc : (u :: rest').contains v
        · rfl
        · exact absurd (List.elem_iff.mp hc) hnm

theorem searchLevels_sound {g : GraphState} {a b : Int} :
    ∀ fuel k vs, searchLevels g b fuel (levels g a k) = some vs →
      ∃ j p, k ≤ j ∧ p ∈ levels g a j ∧ p.head? = some b ∧ vs = p.reverse ∧
        ∀ i q, k ≤ i → i < j → q ∈ levels g a i → q.head? ≠ some b := by
  intro fuel
  induction fuel with
  | zero => intro k vs h; cases h
  | succ f ih =>
    intro k vs h
    rw [searchLevels] at h
    cases hf : findAtLevel b (levels g a k) with
    | some p =>
      rw [hf] at h
      simp only [Option.some.injEq] at h
      have hp : p ∈ levels g a k := List.mem_of_find?_eq_some hf
      have hpb := List.find?_some hf
      refine ⟨k, p, le_refl k, hp, ?_, h.symm, fun i q h1 h2 _ => absurd (lt_of_le_of_lt h1 h2) (lt_irrefl k)⟩
      simpa using hpb
    | none =>
      rw [hf] at h
      have h' : searchLevels g b f (levels g a (k + 1)) = some vs := h
      obtain ⟨j, p, hkj, hp, hphead, hvs, hnone⟩ := ih (k + 1) vs h'
      refine ⟨j, p, by omega, hp, hphead, hvs, ?_⟩
      intro i q h1 h2 hq
      by_cases hik : i = k
      · subst hik
        have := List.find?_eq_none.mp hf q hq
        intro hqb
        exact this (by simpa using hqb)
      · exact hnone i q (by omega) h2 hq

theorem searchLevels_isSome {g : GraphState} {a b : Int} :
    ∀ fuel k j p, k ≤ j → j < k + fuel → p ∈ levels g a j → p.head? = some b →
      (searchLevels g b fuel (levels g a k)).isSome := by
  intro fuel
  induction fuel with
  | zero => intro k j p h1 h2; omega
  | succ f ih =>
    intro k j p h1 h2 hp hb
    rw [searchLevels]
    cases hf : findAtLevel b (levels g a k) with
    | some q => simp
    | none =>
      by_cases hjk : j = k
      · subst hjk
        have := List.find?_eq_none.mp hf p hp
        exact absurd (by simpa using hb) this
      · exact ih (k + 1) j p (by omega) (by omega) hp hb

theorem exists_dup_split {α : Type} [DecidableEq α] :
    ∀ l : List α, ¬ l.Nodup → ∃ (x : α) (xs ys zs : List α), l = (xs ++ (x :: ys)) ++ (x :: zs) := by
  intro l
  induction l with
  | nil => intro h; exact absurd List.nodup_nil h
  | cons y t ih =>
    intro h
    by_cases hy : y ∈ t
    · obtain ⟨ys, zs, rfl⟩ := List.append_of_mem hy
      exact ⟨y, [], ys, zs, rfl⟩
    · have : ¬ t.Nodup := fun hnd => h (List.nodup_cons.mpr ⟨hy, hnd⟩)
      obtain ⟨x, xs, ys, zs, rfl⟩ := ih this
      exact ⟨x, y :: xs, ys, zs, rfl⟩

theorem chain'_of_append_left {α : Type} {R : α → α → Prop} {l₁ l₂ : List α}
    (h : List.Chain' R (l₁ ++ l₂)) : List.Chain' R l₁ :=
  (List.chain'_append.mp h).1

theorem walk_trim_aux {g : GraphState} {a b : Int} :
    ∀ n (vs : List Int), vs.length ≤ n → WalkFromTo g a b vs →
      ∃ ws, WalkFromTo g a b ws ∧ ws.Nodup ∧ ws.length ≤ vs.length := by
  intro n
  induction n with
  | zero =>
    intro vs hlen hw
    obtain ⟨h1, h2, h3⟩ := hw
    cases vs with
    | nil => cases h1
    | cons u t => simp at hlen
  | succ n ih =>
    intro vs hlen hw
    by_cases hnd : vs.Nodup
    · exact ⟨vs, hw, hnd, le_refl _⟩
    · obtain ⟨x, xs, ys, zs, rfl⟩ := exists_dup_split vs hnd
      obtain ⟨h1, h2, h3⟩ := hw
      have hxzs : (x :: zs) ≠ ([] : List Int) := by simp
      have hch := h3
      rw [List.chain'_append] at hch
      obtain ⟨hchA, hchB, hlinkAB⟩ := hch
      rw [List.chain'_append] at hchA
      obtain ⟨hchxs, hchxy, hlink1⟩ := hchA
      have hws : WalkFromTo g a b (xs ++ (x :: zs)) := by
        refine ⟨?_, ?_, ?_⟩
        · cases xs with
          | nil =>
            simp only [List.nil_append, List.cons_append, List.head?_cons] at h1 ⊢
            exact h1
          | cons w xs' => exact h1
        · rw [List.getLast?_append_of_ne_nil _ hxzs]
          rw [List.getLast?_append_of_ne_nil _ hxzs] at h2
          exact h2
        · rw [List.chain'_append]
          refine ⟨hchxs, hchB, ?_⟩
          intro p hp q hq
          have hq' : q = x := by
            have := hq
            simp at this
            omega
          subst hq'
          exact hlink1 p hp q rfl
      have hlen2 : (xs ++ (x :: zs)).length ≤ n := by
        simp only [List.length_append, List.length_cons] at hlen ⊢
        omega
      obtain ⟨ws, hw', hnd', hle⟩ := ih (xs ++ (x :: zs)) hlen2 hws
      refine ⟨ws, hw', hnd', ?_⟩
      calc ws.length ≤ (xs ++ (x :: zs)).length := hle
        _ ≤ ((xs ++ (x :: ys)) ++ (x :: zs)).length := by simp; omega

theorem walk_trim {g : GraphState} {a b : Int} (vs : List Int) (hw : WalkFromTo g a b vs) :
    ∃ ws, WalkFromTo g a b ws ∧ ws.Nodup ∧ ws.length ≤ vs.length :=
  walk_trim_aux vs.length vs (le_refl _) hw

theorem rev_of_walk {g : GraphState} {a b : Int} {vs : List Int} (h : WalkFromTo g a b vs) :
    vs.reverse.getLast? = some a ∧ vs.reverse.head? = some b ∧
      List.Chain' (revStepRel g) vs.reverse ∧ vs.reverse ≠ [] := by
  obtain ⟨h1, h2, h3⟩ := h
  refine ⟨?_, ?_, ?_, ?_⟩
  · rw [List.getLast?_reverse]; exact h1
  · rw [List.head?_reverse]; exact h2
  · rw [List.chain'_reverse]; exact h3
  · simp only [ne_eq, List.reverse_eq_nil_iff]
    intro hnil
    subst hnil
    cases h1

theorem walk_of_rev {g : GraphState} {a b : Int} {p : List Int}
    (hlast : p.getLast? = some a) (hhead : p.head? = some b)
    (hchain : List.Chain' (revStepRel g) p) : WalkFromTo g a b p.reverse := by
  refine ⟨?_, ?_, ?_⟩
  · rw [List.head?_reverse]; exact hlast
  · rw [List.getLast?_reverse]; exact hhead
  · rw [List.chain'_reverse]; exact hchain

theorem endpoints_length : ∀ es : List CostarEdge, (endpoints es).length = 2 * es.length := by
  intro es
  induction es with
  | nil => rfl
  | cons e es ih =>
    rw [endpoints, List.length_cons, List.length_cons, ih, List.length_cons]
    omega

theorem mem_endpoints_of_mem {es : List CostarEdge} {e : CostarEdge} (he : e ∈ es) :
    e.src ∈ endpoints es ∧ e.dst ∈ endpoints es := by
  induction es with
  | nil => cases he
  | cons f fs ih =>
    rcases List.mem_cons.mp he with rfl | he'
    · exact ⟨List.mem_cons_self _ _, List.mem_cons_of_mem _ (List.mem_cons_self _ _)⟩
    · obtain ⟨hs, hd⟩ := ih he'
      exact ⟨List.mem_cons_of_mem _ (List.mem_cons_of_mem _ hs),
        List.mem_cons_of_mem _ (List.mem_cons_of_mem _ hd)⟩

theorem neighbors_mem_endpoints {g : GraphState} {u v : Int} (hv : v ∈ neighbors g u) :
    v ∈ endpoints g.edges := by
  rw [neighbors, List.mem_filterMap] at hv
  obtain ⟨e, he, hne⟩ := hv
  obtain ⟨hs, hd⟩ := mem_endpoints_of_mem he
  rw [neighborOf] at hne
  by_cases h1 : (e.src == u) = true
  · rw [if_pos h1] at hne
    simp only [Option.some.injEq] at hne
    exact hne ▸ hd
  · rw [if_neg h1] at hne
    by_cases h2 : (e.dst == u) = true
    · rw [if_pos h2] at hne
      simp only [Option.some.injEq] at hne
      exact hne ▸ hs
    · rw [if_neg h2] at hne
      cases hne

theorem levels_mem_carrier {g : GraphState} {a : Int} :
    ∀ k p, p ∈ levels g a k → ∀ u ∈ p, u ∈ a :: endpoints g.edges := by
  intro k
  induction k with
  | zero =>
    intro p hp u hu
    rw [levels, List.mem_singleton] at hp
    subst hp
    simp only [List.mem_singleton] at hu
    subst hu
    exact List.mem_cons_self _ _
  | succ k ih =>
    intro p hp u hu
    rw [levels, levelNext, List.mem_flatMap] at hp
    obtain ⟨q, hq, hpq⟩ := hp
    match q, hpq with
    | w :: rest, hpq =>
      rw [extendPath] at hpq
      simp only [List.mem_map, List.mem_filter] at hpq
      obtain ⟨v, ⟨hv, _⟩, rfl⟩ := hpq
      rcases List.mem_cons.mp hu with rfl | hu'
      · exact List.mem_cons_of_mem _ (neighbors_mem_endpoints hv)
      · exact ih (w :: rest) hq u hu'

theorem levels_length_bound {g : GraphState} {a : Int} {k : Nat} {p : List Int}
    (hp : p ∈ levels g a k) : k < searchFuel g := by
  obtain ⟨hlen, hnd, _, _⟩ := levels_sound k p hp
  have hsub := levels_mem_carrier k p hp
  have h1 : p.toFinset.card = p.length := List.toFinset_card_of_nodup hnd
  have h2 : p.toFinset ⊆ (a :: endpoints g.edges).toFinset := by
    intro u hu
    rw [List.mem_toFinset] at hu ⊢
    exact hsub u hu
  have h3 := Finset.card_le_card h2
  have h4 := List.toFinset_card_le (a :: endpoints g.edges)
  rw [h1] at h3
  have h5 : (a :: endpoints g.edges).length = 1 + 2 * g.edges.length := by
    rw [List.length_cons, endpoints_length]
    omega
  rw [searchFuel]
  omega

theorem shortestPathNodes_some_walk {g : GraphState} {a b : Int} {vs : List Int}
    (h : shortestPathNodes g a b = some vs) : WalkFromTo g a b vs := by
  have h' : searchLevels g b (searchFuel g) (levels g a 0) = some vs := h
  obtain ⟨j, p, _, hpj, hphead, hvs, _⟩ := searchLevels_sound (searchFuel g) 0 vs h'
  obtain ⟨_, _, hplast, hpchain⟩ := levels_sound j p hpj
  exact hvs ▸ walk_of_rev hplast hphead hpchain

theorem shortestPathNodes_found {g : GraphState} {a b : Int}
    (hconn : ∃ ws, WalkFromTo g a b ws) :
    ∃ vs, shortestPathNodes g a b = some vs ∧ WalkFromTo g a b vs ∧ vs.Nodup ∧
      ∀ ws, WalkFromTo g a b ws → vs.length ≤ ws.length := by
  obtain ⟨ws0, hws0⟩ := hconn
  obtain ⟨ws1, hw1, hnd1, _⟩ := walk_trim ws0 hws0
  obtain ⟨hrlast, hrhead, hrchain, hrne⟩ := rev_of_walk hw1
  have hndr : ws1.reverse.Nodup := by simpa using hnd1
  have hmem := levels_complete ws1.reverse hndr hrlast hrchain hrne
  have hbound := levels_length_bound hmem
  have hsome := searchLevels_isSome (searchFuel g) 0 (ws1.reverse.length - 1) ws1.reverse
    (Nat.zero_le _) (by omega) hmem hrhead
  have heq : searchLevels g b (searchFuel g) (levels g a 0) = shortestPathNodes g a b := rfl
  rw [heq] at hsome
  cases hres : shortestPathNodes g a b with
  | none => rw [hres] at hsome; cases hsome
  | some vs =>
    have h' : searchLevels g b (searchFuel g) (levels g a 0) = some vs := hres
    obtain ⟨j, p, _, hpj, hphead, hvs, hnone⟩ := searchLevels_sound (searchFuel g) 0 vs h'
    obtain ⟨hplen, hpnd, hplast, hpchain⟩ := levels_sound j p hpj
    have hwvs : WalkFromTo g a b vs := hvs ▸ walk_of_rev hplast hphead hpchain
    have hvslen : vs.length = j + 1 := by rw [hvs, List.length_reverse, hplen]
    refine ⟨vs, rfl, hwvs, by rw [hvs]; simpa using hpnd, ?_⟩
    intro ws hws
    obtain ⟨ws', hw', hnd', hle'⟩ := walk_trim ws hws
    obtain ⟨hl', hh', hc', hn'⟩ := rev_of_walk hw'
    have hmem' := levels_complete ws'.reverse (by simpa using hnd') hl' hc' hn'
    by_contra hcon
    push_neg at hcon
    have hwsne : ws' ≠ [] := by
      intro hnil
      subst hnil
      cases hw'.1
    have hlt : ws'.reverse.length - 1 < j := by
      have h6 : ws'.length ≤ ws.length := hle'
      have h7 : ws.length < vs.length := hcon
      have h8 : 1 ≤ ws'.length := List.length_pos.mpr hwsne
      rw [List.length_reverse]
      omega
    exact hnone _ ws'.reverse (Nat.zero_le _) hlt hmem' hh'

theorem stepOfEdge_actor {g : GraphState} (u v : Int) : (stepOfEdge g u v).actor = none := by
  rw [stepOfEdge]
  cases edgeBetween g u v <;> rfl

theorem buildSteps_length {g : GraphState} :
    ∀ vs : List Int, vs ≠ [] → (buildSteps g vs).length = 2 * vs.length - 1 := by
  intro vs
  induction vs with
  | nil => intro h; exact absurd rfl h
  | cons u rest ih =>
    intro _
    cases rest with
    | nil => rfl
    | cons v rest' =>
      show (stepOfNode g u :: stepOfEdge g u v :: buildSteps g (v :: rest')).length = _
      simp only [List.length_cons]
      rw [ih (by simp)]
      simp only [List.length_cons]
      omega

theorem buildSteps_alternating {g : GraphState} :
    ∀ vs : List Int, alternatingSteps (buildSteps g vs) = true := by
  intro vs
  induction vs with
  | nil => rfl
  | cons u rest ih =>
    cases rest with
    | nil => rfl
    | cons v rest' =>
      show alternatingSteps (stepOfNode g u :: stepOfEdge g u v :: buildSteps g (v :: rest')) = true
      rw [alternatingSteps]
      rw [stepOfEdge_actor]
      simpa [stepOfNode] using ih

theorem buildSteps_cons_eq {g : GraphState} (v : Int) (rest : List Int) :
    ∃ t, buildSteps g (v :: rest) = stepOfNode g v :: t := by
  cases rest with
  | nil => exact ⟨[], rfl⟩
  | cons w rest' => exact ⟨_, rfl⟩

theorem buildSteps_head {g : GraphState} (u : Int) (rest : List Int) :
    (buildSteps g (u :: rest)).head? = some (stepOfNode g u) := by
  cases rest <;> rfl

theorem buildSteps_last {g : GraphState} :
    ∀ (vs : List Int) (u : Int), vs.getLast? = some u →
      (buildSteps g vs).getLast? = some (stepOfNode g u) := by
  intro vs
  induction vs with
  | nil => intro u h; cases h
  | cons w rest ih =>
    intro u h
    cases rest with
    | nil =>
      simp only [List.getLast?_singleton, Option.some.injEq] at h
      subst h
      rfl
    | cons v rest' =>
      rw [List.getLast?_cons_cons] at h
      show (stepOfNode g w :: stepOfEdge g w v :: buildSteps g (v :: rest')).getLast? = _
      obtain ⟨t, ht⟩ := buildSteps_cons_eq (g := g) v rest'
      rw [ht, List.getLast?_cons_cons, List.getLast?_cons_cons, ← ht]
      exact ih u h

def gDisconnected : GraphState := ⟨[⟨1, "Actor A"⟩, ⟨2, "Actor B"⟩], [], none⟩

/-! ### Claim theorems: shortest path -/

/-- C6: for every pair of distinct, connected Person identifiers, ShortestPath returns
a 2n+1-step alternating sequence (actor, relationship, actor, ..., actor) along a
minimum-hop walk from the source to the target, the path's degree being n; in
particular, on the A-X-B-Y-C chain of the integration test, ShortestPath(A, C) is the
5-step sequence [A, X, B, Y, C] of degree 2. -/
theorem c6_shortest_path_correct :
    (∀ (g : GraphState) (a b : Int), a ≠ b →
      actorExists g a = true → actorExists g b = true →
      (∃ ws, WalkFromTo g a b ws) →
      ∃ (n : Nat) (vs : List Int),
        WalkFromTo g a b vs ∧ vs.length = n + 1 ∧ 1 ≤ n ∧
        (∀ ws, WalkFromTo g a b ws → vs.length ≤ ws.length) ∧
        ShortestPath g a b = .ok (buildSteps g vs) ∧
        (buildSteps g vs).length = 2 * n + 1 ∧
        alternatingSteps (buildSteps g vs) = true ∧
        (buildSteps g vs).head? = some (stepOfNode g a) ∧
        (buildSteps g vs).getLast? = some (stepOfNode g b))
    ∧ ShortestPath exampleChain 1 3 = .ok
        [⟨some ⟨1, "Actor A"⟩, "", 0⟩, ⟨none, "Movie One", 2000⟩,
         ⟨some ⟨2, "Actor B"⟩, "", 0⟩, ⟨none, "Movie Two", 2010⟩,
         ⟨some ⟨3, "Actor C"⟩, "", 0⟩] := by
  constructor
  · intro g a b hne ha hb hconn
    obtain ⟨vs, hsp, hwvs, hnd, hmin⟩ := shortestPathNodes_found hconn
    have hvsne : vs ≠ [] := by
      intro h
      subst h
      cases hwvs.1
    have hlen2 : 2 ≤ vs.length := by
      cases vs with
      | nil => cases hwvs.1
      | cons u rest =>
        cases rest with
        | nil =>
          obtain ⟨h1, h2, _⟩ := hwvs
          simp only [List.head?_cons, Option.some.injEq] at h1
          simp only [List.getLast?_singleton, Option.some.injEq] at h2
          subst h1
          exact absurd h2 hne
        | cons v rest' => simp
    have hhead : (buildSteps g vs).head? = some (stepOfNode g a) := by
      cases vs with
      | nil => cases hwvs.1
      | cons u rest =>
        have h1 : u = a := by
          have := hwvs.1
          simpa using this
        subst h1
        exact buildSteps_head u rest
    refine ⟨vs.length - 1, vs, hwvs, by omega, by omega, hmin, ?_, ?_,
      buildSteps_alternating vs, hhead, buildSteps_last vs b hwvs.2.1⟩
    · rw [ShortestPath, if_pos (by rw [ha, hb]; rfl), hsp]
    · rw [buildSteps_length vs hvsne]
      omega
  · rfl

/-- C6 witness: the general statement applied to the A-X-B-Y-C chain with the walk
[1, 2, 3] discharging connectivity. -/
theorem c6_shortest_path_correct_witness :
    ∃ (n : Nat) (vs : List Int),
      WalkFromTo exampleChain 1 3 vs ∧ vs.length = n + 1 ∧ 1 ≤ n ∧
      (∀ ws, WalkFromTo exampleChain 1 3 ws → vs.length ≤ ws.length) ∧
      ShortestPath exampleChain 1 3 = .ok (buildSteps exampleChain vs) ∧
      (buildSteps exampleChain vs).length = 2 * n + 1 ∧
      alternatingSteps (buildSteps exampleChain vs) = true ∧
      (buildSteps exampleChain vs).head? = some (stepOfNode exampleChain 1) ∧
      (buildSteps exampleChain vs).getLast? = some (stepOfNode exampleChain 3) :=
  c6_shortest_path_correct.1 exampleChain 1 3 (by decide) rfl rfl
    ⟨[1, 2, 3], rfl, rfl,
      List.chain'_cons.mpr ⟨(rfl : adjacent exampleChain 1 2 = true),
        List.chain'_cons.mpr ⟨(rfl : adjacent exampleChain 2 3 = true),
          List.chain'_singleton 3⟩⟩⟩

/-- C7: two Person nodes that both exist but have no connecting path of Costar
relationships yield an empty ShortestPath result with no error. -/
theorem c7_no_path_empty_result (g : GraphState) (a b : Int)
    (ha : actorExists g a = true) (hb : actorExists g b = true)
    (hnoconn : ¬ ∃ ws, WalkFromTo g a b ws) :
    ShortestPath g a b = .ok [] := by
  rw [ShortestPath, if_pos (by rw [ha, hb]; rfl)]
  cases hres : shortestPathNodes g a b with
  | none => rfl
  | some vs => exact absurd ⟨vs, shortestPathNodes_some_walk hres⟩ hnoconn

/-- C7 witness: two stored actors with no edges at all give an empty, error-free
result. -/
theorem c7_no_path_empty_result_witness : ShortestPath gDisconnected 1 2 = .ok [] :=
  c7_no_path_empty_result gDisconnected 1 2 rfl rfl (fun hconn => by
    obtain ⟨vs, hsp, _, _, _⟩ := shortestPathNodes_found hconn
    rw [show shortestPathNodes gDisconnected 1 2 = none from rfl] at hsp
    cases hsp)

/-! ### Ingestion pipeline (cmd/ingest/main.go) -/

inductive StoreOp where
  | upsertActor (id : Int) (name : String)
  | costarEdge (a b movieID year : Int) (title : String)
  | setWatermark (page : Nat)
  deriving DecidableEq, Repr

def applyOp (g : GraphState) : StoreOp → GraphState
  | .upsertActor id name => UpsertActor g id name
  | .costarEdge a b m y t => CreateCostarEdge g a b m y t
  | .setWatermark p => SetLastIngestedPage g p

def applyOps (g : GraphState) (ops : List StoreOp) : GraphState :=
  ops.foldl applyOp g

def pairEdgeOps (movie : Movie) : List Actor → List StoreOp
  | [] => []
  | a :: rest =>
    rest.map (fun b => .costarEdge a.tmdbID b.tmdbID movie.tmdbID movie.year movie.title)
      ++ pairEdgeOps movie rest

/-- Modelled from the spec: `IngestMovieCast` (called by cmd/ingest/main.go, its Go
implementation is not among the sources) upserts every Person of the cast and then
creates one Costar relationship per unordered pair of cast members — C(k,2) pairs,
generated in cast order, each attributed to the movie's id, title and year. -/
def ingestMovieCastOps (movie : Movie) (cast : List Actor) : List StoreOp :=
  cast.map (fun a => .upsertActor a.tmdbID a.name) ++ pairEdgeOps movie cast

/-- A deterministic provider: the constant reported page total, the catalog page
contents (`none` is a failed page fetch), and each movie's cast (`none` is a failed
cast fetch). -/
structure Provider where
  totalPages : Nat
  pageMovies : Nat → Option (List Movie)
  movieCast : Int → Option (List Actor)

/-- Store operations performed for one movie of a page: a failed cast fetch skips the
movie (cmd/ingest/main.go lines 80-87), otherwise its cast is ingested. -/
def movieOps (P : Provider) (m : Movie) : List StoreOp :=
  match P.movieCast m.tmdbID with
  | none => []
  | some cast => ingestMovieCastOps m cast

def pageMovieOps (P : Provider) (movies : List Movie) : List StoreOp :=
  movies.flatMap (movieOps P)

def movieOpsAt (P : Provider) (movies : List Movie) (i : Nat) : List StoreOp :=
  match movies.get? i with
  | some m => movieOps P m
  | none => []

/-- All store operations a page's iteration performs before its watermark write: nothing
when the catalog fetch fails, otherwise the per-movie ingestion operations in order. -/
def pageOps (P : Provider) (p : Nat) : List StoreOp :=
  match P.pageMovies p with
  | none => []
  | some movies => pageMovieOps P movies

/-- A two-page catalog whose both pages fetch successfully, with a one-movie cast list
per page (used to instantiate the resumability and cancellation theorems). -/
def pDemo : Provider :=
  ⟨2,
   fun p => if p = 1 then some [⟨101, "M1", 1999⟩]
     else if p = 2 then some [⟨102, "M2", 2000⟩] else none,
   fun m => if m = 101 then some [⟨1, "A"⟩, ⟨2, "B"⟩]
     else if m = 102 then some [⟨2, "B"⟩, ⟨3, "C"⟩] else none⟩

/-- A catalog whose page 1 fetch fails while page 2 succeeds: the later successful page
advances the watermark past the failed page. -/
def pFailFirst : Provider :=
  ⟨2, fun p => if p = 2 then some ([] : List Movie) else none, fun _ => none⟩

/-- A catalog whose page 1 succeeds and whose pages 2 and 3 fail: the watermark stays at
1, so a resumed run starting at watermark+1 refetches the failed page 2. -/
def pTailFail : Provider :=
  ⟨3, fun p => if p = 1 then some ([] : List Movie) else none, fun _ => none⟩

/-- Driver-loop state: the graph, the effective last page (shrunk when the provider
reports a smaller total), and traces of the pages whose catalog fetch was attempted and
of the pages whose watermark was committed. -/
structure RunState where
  g : GraphState
  lastP : Nat
  fetched : List Nat
  committed : List Nat
  deriving DecidableEq, Repr

/-- One iteration of the page loop of cmd/ingest/main.go (lines 60-104), uninterrupted:
pages beyond the current effective last page are not processed (the Go loop has already
exited); a failed page fetch logs and continues with no watermark; a successful page
ingests each movie, shrinks the effective last page to the reported total when that is
smaller, and persists the watermark for the completed page. -/
def pageStep (P : Provider) (s : RunState) (page : Nat) : RunState :=
  if page ≤ s.lastP then
    match P.pageMovies page with
    | none => { s with fetched := s.fetched ++ [page] }
    | some movies =>
      { g := applyOps s.g (pageMovieOps P movies ++ [.setWatermark page]),
        lastP := min P.totalPages s.lastP,
        fetched := s.fetched ++ [page],
        committed := s.committed ++ [page] }
  else s

/-- The ingest driver loop over pages `first..lastFlag` without interruption.  The Go
loop exits as soon as the page index passes the effective last page; since that bound
never grows, iterating the remaining pages as no-ops is the same final state. -/
def runRange (P : Provider) (first lastFlag : Nat) (g₀ : GraphState) : RunState :=
  (List.range' first (lastFlag + 1 - first)).foldl (pageStep P) ⟨g₀, lastFlag, [], []⟩

/-- The driver loop when the cooperative cancellation signal is raised while movie `cm`
of page `cp` is being processed, `k` of that movie's store operations having been
applied when the signal interrupts it.  Pages before `cp` run normally.  At page `cp`
the movies before `cm` are ingested; the in-flight movie's work stops after `k`
operations (its cast fetch or upsert returns the cancellation error and the movie loop
breaks), the `ctx.Err() == nil` guard then fails so no watermark is written, and the
loop-top check stops every later page (cmd/ingest/main.go lines 60-104). -/
def runCancelled (P : Provider) (cp cm k : Nat) (page : Nat) (s : RunState) : RunState :=
  if h : page ≤ s.lastP then
    if cp < page then s
    else
      match P.pageMovies page with
      | none =>
        runCancelled P cp cm k (page + 1) { s with fetched := s.fetched ++ [page] }
      | some movies =>
        if page < cp then
          runCancelled P cp cm k (page + 1)
            { g := applyOps s.g (pageMovieOps P movies ++ [.setWatermark page]),
              lastP := min P.totalPages s.lastP,
              fetched := s.fetched ++ [page],
              committed := s.committed ++ [page] }
        else
          { s with
            g := applyOps s.g (pageMovieOps P (movies.take cm) ++ (movieOpsAt P movies cm).take k),
            fetched := s.fetched ++ [page] }
  else s
termination_by s.lastP + 1 - page
decreasing_by
  · omega
  · omega

/-- The tail of a cancelled run: what happens at the cancellation page itself once the
pages before it have run normally. -/
def cancelFinish (P : Provider) (cp cm k : Nat) (t : RunState) : RunState :=
  if cp ≤ t.lastP then
    match P.pageMovies cp with
    | none => { t with fetched := t.fetched ++ [cp] }
    | some movies =>
      { t with
        g := applyOps t.g (pageMovieOps P (movies.take cm) ++ (movieOpsAt P movies cm).take k),
        fetched := t.fetched ++ [cp] }
  else t

/-! ### Syntactic views of operation lists -/

def lastUpsert : List StoreOp → Int → Option String
  | [], _ => none
  | .upsertActor i n :: rest, id =>
    match lastUpsert rest id with
    | some n' => some n'
    | none => if i == id then some n else none
  | _ :: rest, id => lastUpsert rest id

def lastEdgeW : List StoreOp → Int → Int → Int → Option (String × Int)
  | [], _, _, _ => none
  | .costarEdge a b m y t :: rest, a', b', m' =>
    match lastEdgeW rest a' b' m' with
    | some r => some r
    | none => if a == a' && b == b' && m == m' then some (t, y) else none
  | _ :: rest, a', b', m' => lastEdgeW rest a' b' m'

def lastWm : List StoreOp → Option Nat
  | [] => none
  | .setWatermark p :: rest =>
    match lastWm rest with
    | some w => some w
    | none => some p
  | _ :: rest => lastWm rest

def upsertIds : List StoreOp → List Int
  | [] => []
  | .upsertActor i _ :: rest => i :: upsertIds rest
  | _ :: rest => upsertIds rest

def edgeOpKeys : List StoreOp → List (Int × Int × Int)
  | [] => []
  | .costarEdge a b m _ _ :: rest => (a, b, m) :: edgeOpKeys rest
  | _ :: rest => edgeOpKeys rest

/-- Every costar-edge operation is preceded (within the list, or by `keys`) by upserts
of both of its endpoints, so it always finds its actor nodes and executes. -/
def coveredFrom (keys : List Int) : List StoreOp → Bool
  | [] => true
  | .upsertActor i _ :: rest => coveredFrom (i :: keys) rest
  | .costarEdge a b _ _ _ :: rest => keys.contains a && keys.contains b && coveredFrom keys rest
  | .setWatermark _ :: rest => coveredFrom keys rest

def noWm : List StoreOp → Bool
  | [] => true
  | .setWatermark _ :: _ => false
  | _ :: rest => noWm rest

def actorIds (g : GraphState) : List Int := g.actors.map (fun a => a.tmdbID)

def edgeKeys (g : GraphState) : List (Int × Int × Int) :=
  g.edges.map (fun e => (e.src, e.dst, e.movieID))

/-! ### Basic lemmas about the store operations -/

theorem applyOps_append (g : GraphState) (l₁ l₂ : List StoreOp) :
    applyOps g (l₁ ++ l₂) = applyOps (applyOps g l₁) l₂ :=
  List.foldl_append _ _ _ _

theorem actorExists_iff_mem {g : GraphState} {k : Int} :
    actorExists g k = true ↔ k ∈ actorIds g := by
  rw [actorExists, actorIds, List.any_eq_true]
  constructor
  · rintro ⟨a, ha, hk⟩
    rw [List.mem_map]
    exact ⟨a, ha, by simpa using hk⟩
  · intro hk
    rw [List.mem_map] at hk
    obtain ⟨a, ha, hk⟩ := hk
    exact ⟨a, ha, by simp [hk]⟩

theorem edgeMatches_iff {e : CostarEdge} {a b m : Int} :
    edgeMatches e a b m = true ↔ e.src = a ∧ e.dst = b ∧ e.movieID = m := by
  rw [edgeMatches]
  simp [and_assoc]

theorem edgeAny_iff_mem {g : GraphState} {a b m : Int} :
    (g.edges.any (fun e => edgeMatches e a b m)) = true ↔ (a, b, m) ∈ edgeKeys g := by
  rw [List.any_eq_true, edgeKeys]
  constructor
  · rintro ⟨e, he, hm⟩
    rw [List.mem_map]
    obtain ⟨h1, h2, h3⟩ := edgeMatches_iff.mp hm
    exact ⟨e, he, by rw [h1, h2, h3]⟩
  · intro hk
    rw [List.mem_map] at hk
    obtain ⟨e, he, hk⟩ := hk
    refine ⟨e, he, edgeMatches_iff.mpr ?_⟩
    simp only [Prod.mk.injEq] at hk
    exact ⟨hk.1, hk.2.1, hk.2.2⟩

theorem upsert_edges_lastPage (g : GraphState) (id : Int) (n : String) :
    (UpsertActor g id n).edges = g.edges ∧ (UpsertActor g id n).lastPage = g.lastPage := by
  rw [UpsertActor]
  split_ifs <;> exact ⟨rfl, rfl⟩

theorem createCostar_actors_lastPage (g : GraphState) (a b m y : Int) (t : String) :
    (CreateCostarEdge g a b m y t).actors = g.actors
      ∧ (CreateCostarEdge g a b m y t).lastPage = g.lastPage := by
  rw [CreateCostarEdge]
  split_ifs <;> exact ⟨rfl, rfl⟩

theorem upsert_actors_of_exists {g : GraphState} {id : Int} (n : String)
    (h : actorExists g id = true) :
    (UpsertActor g id n).actors =
      g.actors.map (fun a => if a.tmdbID == id then { a with name := n } else a) := by
  have h' : (g.actors.any fun a => a.tmdbID == id) = true := h
  rw [UpsertActor, if_pos h']

theorem upsert_actors_of_absent {g : GraphState} {id : Int} (n : String)
    (h : ¬ actorExists g id = true) :
    (UpsertActor g id n).actors = g.actors ++ [⟨id, n⟩] := by
  have h' : ¬ (g.actors.any fun a => a.tmdbID == id) = true := h
  rw [UpsertActor, if_neg h']

theorem createCostar_exec {g : GraphState} {a b m : Int} (y : Int) (t : String)
    (ha : actorExists g a = true) (hb : actorExists g b = true)
    (hk : (a, b, m) ∈ edgeKeys g) :
    (CreateCostarEdge g a b m y t).edges =
      g.edges.map (fun e => if edgeMatches e a b m then { e with title := t, year := y } else e) := by
  have ha' : (g.actors.any fun x => x.tmdbID == a) = true := ha
  have hb' : (g.actors.any fun x => x.tmdbID == b) = true := hb
  rw [CreateCostarEdge, if_pos (by rw [ha', hb']; rfl), if_pos (edgeAny_iff_mem.mpr hk)]

theorem createCostar_append_edges {g : GraphState} {a b m : Int} (y : Int) (t : String)
    (ha : actorExists g a = true) (hb : actorExists g b = true)
    (hk : (a, b, m) ∉ edgeKeys g) :
    (CreateCostarEdge g a b m y t).edges = g.edges ++ [⟨a, b, m, t, y⟩] := by
  have ha' : (g.actors.any fun x => x.tmdbID == a) = true := ha
  have hb' : (g.actors.any fun x => x.tmdbID == b) = true := hb
  rw [CreateCostarEdge, if_pos (by rw [ha', hb']; rfl),
    if_neg (fun h => hk (edgeAny_iff_mem.mp h))]

theorem actorIds_upsert (g : GraphState) (i : Int) (n : String) :
    actorIds (UpsertActor g i n) = actorIds g
      ∨ actorIds (UpsertActor g i n) = actorIds g ++ [i] := by
  rw [UpsertActor]
  split_ifs with h
  · left
    rw [actorIds, actorIds, List.map_map]
    refine List.map_congr_left (fun a ha => ?_)
    simp only [Function.comp_apply]
    split <;> rfl
  · right
    rw [actorIds, actorIds]
    simp

theorem actorIds_upsert_of_exists {g : GraphState} {i : Int} (n : String)
    (h : actorExists g i = true) :
    actorIds (UpsertActor g i n) = actorIds g := by
  rw [actorIds, upsert_actors_of_exists n h, List.map_map, actorIds]
  refine List.map_congr_left (fun a ha => ?_)
  simp only [Function.comp_apply]
  split <;> rfl

theorem actorIds_applyOp_mono {g : GraphState} (op : StoreOp) {k : Int}
    (h : k ∈ actorIds g) : k ∈ actorIds (applyOp g op) := by
  cases op with
  | upsertActor i n =>
    rw [applyOp]
    rcases actorIds_upsert g i n with heq | heq <;> rw [heq]
    · exact h
    · exact List.mem_append_left _ h
  | costarEdge a b m y t =>
    show k ∈ actorIds (CreateCostarEdge g a b m y t)
    rw [actorIds, (createCostar_actors_lastPage g a b m y t).1]
    exact h
  | setWatermark p => exact h

theorem actorIds_applyOps_mono {k : Int} :
    ∀ (p : List StoreOp) (g : GraphState), k ∈ actorIds g → k ∈ actorIds (applyOps g p) := by
  intro p
  induction p with
  | nil => intro g h; exact h
  | cons op rest ih => intro g h; exact ih (applyOp g op) (actorIds_applyOp_mono op h)

theorem actorExists_upsert_self (g : GraphState) (i : Int) (n : String) :
    actorExists (UpsertActor g i n) i = true := by
  rw [actorExists_iff_mem]
  by_cases h : actorExists g i = true
  · rw [actorIds_upsert_of_exists n h]
    exact actorExists_iff_mem.mp h
  · rw [actorIds, upsert_actors_of_absent n h, List.map_append]
    exact List.mem_append_right _ (List.mem_singleton.mpr rfl)

theorem edgeKeys_upsert (g : GraphState) (i : Int) (n : String) :
    edgeKeys (UpsertActor g i n) = edgeKeys g := by
  rw [edgeKeys, (upsert_edges_lastPage g i n).1, edgeKeys]

theorem edgeKeys_costar_mono {g : GraphState} (a b m y : Int) (t : String) {K : Int × Int × Int}
    (h : K ∈ edgeKeys g) : K ∈ edgeKeys (CreateCostarEdge g a b m y t) := by
  rw [CreateCostarEdge]
  split_ifs with h1 h2
  · show K ∈ (g.edges.map _).map _
    rw [List.map_map]
    rw [edgeKeys] at h
    rw [List.mem_map] at h ⊢
    obtain ⟨e, he, hk⟩ := h
    refine ⟨e, he, ?_⟩
    simp only [Function.comp_apply]
    split <;> exact hk
  · show K ∈ (g.edges ++ _).map _
    rw [List.map_append]
    exact List.mem_append_left _ h
  · exact h

theorem edgeKeys_applyOp_mono {g : GraphState} (op : StoreOp) {K : Int × Int × Int}
    (h : K ∈ edgeKeys g) : K ∈ edgeKeys (applyOp g op) := by
  cases op with
  | upsertActor i n => rw [applyOp, edgeKeys_upsert]; exact h
  | costarEdge a b m y t => exact edgeKeys_costar_mono a b m y t h
  | setWatermark p => exact h

theorem edgeKeys_applyOps_mono {K : Int × Int × Int} :
    ∀ (p : List StoreOp) (g : GraphState), K ∈ edgeKeys g → K ∈ edgeKeys (applyOps g p) := by
  intro p
  induction p with
  | nil => intro g h; exact h
  | cons op rest ih => intro g h; exact ih (applyOp g op) (edgeKeys_applyOp_mono op h)

theorem edgeKeys_costar_self {g : GraphState} {a b m : Int} (y : Int) (t : String)
    (ha : actorExists g a = true) (hb : actorExists g b = true) :
    (a, b, m) ∈ edgeKeys (CreateCostarEdge g a b m y t) := by
  by_cases hk : (a, b, m) ∈ edgeKeys g
  · exact edgeKeys_costar_mono a b m y t hk
  · rw [edgeKeys, createCostar_append_edges y t ha hb hk, List.map_append]
    exact List.mem_append_right _ (List.mem_singleton.mpr rfl)

/-! ### Presence of upserted keys and executed edge keys -/

theorem upsertIds_applyOps_mem :
    ∀ (p : List StoreOp) (g : GraphState) (k : Int), k ∈ upsertIds p →
      actorExists (applyOps g p) k = true := by
  intro p
  induction p with
  | nil => intro g k h; cases h
  | cons op rest ih =>
    intro g k h
    cases op with
    | upsertActor i n =>
      rw [upsertIds] at h
      rcases List.mem_cons.mp h with rfl | h'
      · have h1 : actorExists (UpsertActor g k n) k = true := actorExists_upsert_self g k n
        exact actorExists_iff_mem.mpr
          (actorIds_applyOps_mono rest _ (actorExists_iff_mem.mp h1))
      · exact ih _ k h'
    | costarEdge a b m y t => exact ih _ k h
    | setWatermark q => exact ih _ k h

theorem edgeOpKeys_applyOps_mem :
    ∀ (p : List StoreOp) (g : GraphState) (keys : List Int),
      coveredFrom keys p = true → (∀ k ∈ keys, actorExists g k = true) →
      ∀ K ∈ edgeOpKeys p, K ∈ edgeKeys (applyOps g p) := by
  intro p
  induction p with
  | nil => intro g keys _ _ K hK; cases hK
  | cons op rest ih =>
    intro g keys hcov hkeys K hK
    cases op with
    | upsertActor i n =>
      refine ih _ (i :: keys) hcov ?_ K hK
      intro k hk
      rcases List.mem_cons.mp hk with rfl | hk'
      · exact actorExists_upsert_self g k n
      · exact actorExists_iff_mem.mpr
          (actorIds_applyOp_mono _ (actorExists_iff_mem.mp (hkeys k hk')))
    | costarEdge a b m y t =>
      rw [coveredFrom] at hcov
      simp only [Bool.and_eq_true] at hcov
      obtain ⟨⟨hca, hcb⟩, hcr⟩ := hcov
      have ha : actorExists g a = true := hkeys a (List.elem_iff.mp hca)
      have hb : actorExists g b = true := hkeys b (List.elem_iff.mp hcb)
      rw [edgeOpKeys] at hK
      rcases List.mem_cons.mp hK with rfl | hK'
      · exact edgeKeys_applyOps_mono rest _ (edgeKeys_costar_self y t ha hb)
      · refine ih _ keys hcr ?_ K hK'
        intro k hk
        exact actorExists_iff_mem.mpr
          (actorIds_applyOp_mono _ (actorExists_iff_mem.mp (hkeys k hk)))
    | setWatermark q =>
      refine ih _ keys hcov ?_ K hK
      intro k hk
      exact hkeys k hk

/-! ### Final attribute values equal the last writes -/

theorem upsert_all_named {g : GraphState} {i : Int} {n : String} :
    ∀ b ∈ (UpsertActor g i n).actors, b.tmdbID = i → b.name = n := by
  intro b hb hbid
  by_cases h : actorExists g i = true
  · rw [upsert_actors_of_exists n h] at hb
    rw [List.mem_map] at hb
    obtain ⟨a, ha, rfl⟩ := hb
    by_cases hai : (a.tmdbID == i) = true
    · rw [if_pos hai]
    · rw [if_neg hai] at hbid ⊢
      exact absurd (by simp [hbid]) hai
  · rw [upsert_actors_of_absent n h] at hb
    rcases List.mem_append.mp hb with hb' | hb'
    · exfalso
      refine h ?_
      rw [actorExists, List.any_eq_true]
      exact ⟨b, hb', by simp [hbid]⟩
    · rw [List.mem_singleton] at hb'
      subst hb'
      rfl

theorem names_preserved_of_no_upsert {k : Int} {nm : String} :
    ∀ (p : List StoreOp) (g : GraphState), lastUpsert p k = none →
      (∀ b ∈ g.actors, b.tmdbID = k → b.name = nm) →
      ∀ b ∈ (applyOps g p).actors, b.tmdbID = k → b.name = nm := by
  intro p
  induction p with
  | nil => intro g _ hg b hb; exact hg b hb
  | cons op rest ih =>
    intro g hl hg
    cases op with
    | upsertActor i n =>
      have h1 : lastUpsert rest k = none ∧ ¬ (i == k) = true := by
        rw [lastUpsert] at hl
        cases hrest : lastUpsert rest k with
        | some n' => rw [hrest] at hl; cases hl
        | none =>
          rw [hrest] at hl
          refine ⟨rfl, fun hik => ?_⟩
          rw [if_pos hik] at hl
          cases hl
      have hik : i ≠ k := fun h => h1.2 (by simp [h])
      refine ih _ h1.1 ?_
      intro b hb0 hbk
      have hb : b ∈ (UpsertActor g i n).actors := hb0
      by_cases h : actorExists g i = true
      · rw [upsert_actors_of_exists n h] at hb
        rw [List.mem_map] at hb
        obtain ⟨a, ha, rfl⟩ := hb
        by_cases hai : (a.tmdbID == i) = true
        · rw [if_pos hai] at hbk
          have hai' : a.tmdbID = i := by simpa using hai
          exact absurd (hai' ▸ hbk) hik
        · rw [if_neg hai] at hbk ⊢
          exact hg a ha hbk
      · rw [upsert_actors_of_absent n h] at hb
        rcases List.mem_append.mp hb with hb' | hb'
        · exact hg b hb' hbk
        · rw [List.mem_singleton] at hb'
          subst hb'
          exact absurd hbk hik
    | costarEdge a b' m y t =>
      refine ih _ hl ?_
      intro b hb hbk
      rw [show (applyOp g (.costarEdge a b' m y t)).actors = g.actors from
        (createCostar_actors_lastPage g a b' m y t).1] at hb
      exact hg b hb hbk
    | setWatermark q =>
      exact ih _ hl hg

theorem lastUpsert_applied :
    ∀ (p : List StoreOp) (g : GraphState) (a : Actor), a ∈ (applyOps g p).actors →
      ∀ nm, lastUpsert p a.tmdbID = some nm → a.name = nm := by
  intro p
  induction p with
  | nil => intro g a ha nm h; cases h
  | cons op rest ih =>
    intro g a hmem nm hl
    cases hrest : lastUpsert rest a.tmdbID with
    | some nm' =>
      have hnm : nm' = nm := by
        cases op with
        | upsertActor i n =>
          rw [lastUpsert, hrest] at hl
          simpa using hl
        | costarEdge a' b' m' y' t' =>
          rw [show lastUpsert (.costarEdge a' b' m' y' t' :: rest) a.tmdbID
            = lastUpsert rest a.tmdbID from rfl, hrest] at hl
          simpa using hl
        | setWatermark q =>
          rw [show lastUpsert (.setWatermark q :: rest) a.tmdbID
            = lastUpsert rest a.tmdbID from rfl, hrest] at hl
          simpa using hl
      exact hnm ▸ ih _ a hmem nm' hrest
    | none =>
      cases op with
      | upsertActor i n =>
        rw [lastUpsert, hrest] at hl
        by_cases hik : (i == a.tmdbID) = true
        · rw [if_pos hik] at hl
          have hn : nm = n := by simpa using hl.symm
          have hik' : i = a.tmdbID := by simpa using hik
          subst hn
          refine names_preserved_of_no_upsert rest (UpsertActor g i nm) hrest ?_ a hmem rfl
          intro b hb hbk
          exact upsert_all_named b hb (hik' ▸ hbk)
        · rw [if_neg hik] at hl
          cases hl
      | costarEdge a' b' m' y' t' =>
        rw [show lastUpsert (.costarEdge a' b' m' y' t' :: rest) a.tmdbID
          = lastUpsert rest a.tmdbID from rfl, hrest] at hl
        cases hl
      | setWatermark q =>
        rw [show lastUpsert (.setWatermark q :: rest) a.tmdbID
          = lastUpsert rest a.tmdbID from rfl, hrest] at hl
        cases hl

theorem edge_all_set {g : GraphState} {a b m : Int} {y : Int} {t : String}
    (ha : actorExists g a = true) (hb : actorExists g b = true) :
    ∀ e ∈ (CreateCostarEdge g a b m y t).edges,
      e.src = a → e.dst = b → e.movieID = m → e.title = t ∧ e.year = y := by
  intro e he h1 h2 h3
  by_cases hk : (a, b, m) ∈ edgeKeys g
  · rw [createCostar_exec y t ha hb hk] at he
    rw [List.mem_map] at he
    obtain ⟨e₀, he₀, rfl⟩ := he
    by_cases hm : edgeMatches e₀ a b m = true
    · rw [if_pos hm]
      exact ⟨rfl, rfl⟩
    · rw [if_neg hm] at h1 h2 h3
      exact absurd (edgeMatches_iff.mpr ⟨h1, h2, h3⟩) hm
  · rw [createCostar_append_edges y t ha hb hk] at he
    rcases List.mem_append.mp he with he' | he'
    · exfalso
      refine hk ?_
      rw [edgeKeys, List.mem_map]
      exact ⟨e, he', by rw [h1, h2, h3]⟩
    · rw [List.mem_singleton] at he'
      subst he'
      exact ⟨rfl, rfl⟩

theorem edges_preserved_of_no_write {a b m : Int} {tt : String} {yy : Int} :
    ∀ (p : List StoreOp) (g : GraphState), lastEdgeW p a b m = none →
      (∀ e ∈ g.edges, e.src = a → e.dst = b → e.movieID = m → e.title = tt ∧ e.year = yy) →
      ∀ e ∈ (applyOps g p).edges, e.src = a → e.dst = b → e.movieID = m →
        e.title = tt ∧ e.year = yy := by
  intro p
  induction p with
  | nil => intro g _ hg e he; exact hg e he
  | cons op rest ih =>
    intro g hl hg
    cases op with
    | upsertActor i n =>
      refine ih _ hl ?_
      intro e he0
      have he : e ∈ g.edges := by
        rw [← (upsert_edges_lastPage g i n).1]
        exact he0
      exact hg e he
    | costarEdge a₀ b₀ m₀ y₀ t₀ =>
      have h1 : lastEdgeW rest a b m = none ∧ ¬ (a₀ == a && b₀ == b && m₀ == m) = true := by
        rw [lastEdgeW] at hl
        cases hrest : lastEdgeW rest a b m with
        | some r => rw [hrest] at hl; cases hl
        | none =>
          rw [hrest] at hl
          refine ⟨rfl, fun hmk => ?_⟩
          rw [if_pos hmk] at hl
          cases hl
      have hne : ¬ (a₀ = a ∧ b₀ = b ∧ m₀ = m) := by
        intro hcon
        exact h1.2 (by simp [hcon.1, hcon.2.1, hcon.2.2])
      refine ih _ h1.1 ?_
      intro e he0 h2 h3 h4
      have he : e ∈ (CreateCostarEdge g a₀ b₀ m₀ y₀ t₀).edges := he0
      rw [CreateCostarEdge] at he
      split_ifs at he with hc1 hc2
      · rw [List.mem_map] at he
        obtain ⟨e₀, he₀, rfl⟩ := he
        by_cases hm : edgeMatches e₀ a₀ b₀ m₀ = true
        · rw [if_pos hm] at h2 h3 h4
          obtain ⟨hq1, hq2, hq3⟩ := edgeMatches_iff.mp hm
          exact absurd ⟨hq1.symm.trans h2, hq2.symm.trans h3, hq3.symm.trans h4⟩ hne
        · rw [if_neg hm] at h2 h3 h4 ⊢
          exact hg e₀ he₀ h2 h3 h4
      · rcases List.mem_append.mp he with he' | he'
        · exact hg e he' h2 h3 h4
        · rw [List.mem_singleton] at he'
          subst he'
          exact absurd ⟨h2, h3, h4⟩ hne
      · exact hg e he h2 h3 h4
    | setWatermark q =>
      exact ih _ hl hg

theorem lastEdgeW_applied :
    ∀ (p : List StoreOp) (g : GraphState) (keys : List Int),
      coveredFrom keys p = true → (∀ k ∈ keys, actorExists g k = true) →
      ∀ e ∈ (applyOps g p).edges, ∀ r, lastEdgeW p e.src e.dst e.movieID = some r →
        e.title = r.1 ∧ e.year = r.2 := by
  intro p
  induction p with
  | nil => intro g keys _ _ e he r h; cases h
  | cons op rest ih =>
    intro g keys hcov hkeys e hmem r hl
    cases hrest : lastEdgeW rest e.src e.dst e.movieID with
    | some r' =>
      have hr : r' = r := by
        cases op with
        | upsertActor i n =>
          rw [show lastEdgeW (.upsertActor i n :: rest) e.src e.dst e.movieID
            = lastEdgeW rest e.src e.dst e.movieID from rfl, hrest] at hl
          simpa using hl
        | costarEdge a' b' m' y' t' =>
          rw [lastEdgeW, hrest] at hl
          simpa using hl
        | setWatermark q =>
          rw [show lastEdgeW (.setWatermark q :: rest) e.src e.dst e.movieID
            = lastEdgeW rest e.src e.dst e.movieID from rfl, hrest] at hl
          simpa using hl
      cases op with
      | upsertActor i n =>
        have hmem' : e ∈ (applyOps (UpsertActor g i n) rest).edges := hmem
        refine hr ▸ ih (UpsertActor g i n) (i :: keys) hcov ?_ e hmem' r' hrest
        intro k hk
        rcases List.mem_cons.mp hk with rfl | hk'
        · exact actorExists_upsert_self g k n
        · exact actorExists_iff_mem.mpr
            (actorIds_applyOp_mono (.upsertActor i n) (actorExists_iff_mem.mp (hkeys k hk')))
      | costarEdge a' b' m' y' t' =>
        rw [coveredFrom] at hcov
        simp only [Bool.and_eq_true] at hcov
        have hmem' : e ∈ (applyOps (CreateCostarEdge g a' b' m' y' t') rest).edges := hmem
        refine hr ▸ ih (CreateCostarEdge g a' b' m' y' t') keys hcov.2 ?_ e hmem' r' hrest
        intro k hk
        exact actorExists_iff_mem.mpr
          (actorIds_applyOp_mono (.costarEdge a' b' m' y' t')
            (actorExists_iff_mem.mp (hkeys k hk)))
      | setWatermark q =>
        have hmem' : e ∈ (applyOps (SetLastIngestedPage g q) rest).edges := hmem
        exact hr ▸ ih (SetLastIngestedPage g q) keys hcov (fun k hk => hkeys k hk) e hmem' r' hrest
    | none =>
      cases op with
      | upsertActor i n =>
        rw [show lastEdgeW (.upsertActor i n :: rest) e.src e.dst e.movieID
          = lastEdgeW rest e.src e.dst e.movieID from rfl, hrest] at hl
        cases hl
      | setWatermark q =>
        rw [show lastEdgeW (.setWatermark q :: rest) e.src e.dst e.movieID
          = lastEdgeW rest e.src e.dst e.movieID from rfl, hrest] at hl
        cases hl
      | costarEdge a' b' m' y' t' =>
        rw [lastEdgeW, hrest] at hl
        by_cases hmk : (a' == e.src && b' == e.dst && m' == e.movieID) = true
        · rw [if_pos hmk] at hl
          have hr : r = (t', y') := by simpa using hl.symm
          subst hr
          simp only [Bool.and_eq_true, beq_iff_eq] at hmk
          obtain ⟨⟨hk1, hk2⟩, hk3⟩ := hmk
          rw [coveredFrom] at hcov
          simp only [Bool.and_eq_true] at hcov
          obtain ⟨⟨hca, hcb⟩, hcr⟩ := hcov
          have ha : actorExists g a' = true := hkeys a' (List.elem_iff.mp hca)
          have hb : actorExists g b' = true := hkeys b' (List.elem_iff.mp hcb)
          have hmem' : e ∈ (applyOps (CreateCostarEdge g a' b' m' y' t') rest).edges := hmem
          refine edges_preserved_of_no_write rest (CreateCostarEdge g a' b' m' y' t')
            hrest ?_ e hmem' rfl rfl rfl
          intro e₀ he₀ hq1 hq2 hq3
          exact edge_all_set ha hb e₀ he₀ (hq1.trans hk1.symm) (hq2.trans hk2.symm)
            (hq3.trans hk3.symm)
        · rw [if_neg hmk] at hl
          cases hl

theorem lastPage_applyOps :
    ∀ (p : List StoreOp) (g : GraphState),
      (applyOps g p).lastPage =
        match lastWm p with
        | some w => some w
        | none => g.lastPage := by
  intro p
  induction p with
  | nil => intro g; rfl
  | cons op rest ih =>
    intro g
    cases op with
    | upsertActor i n =>
      rw [show applyOps g (.upsertActor i n :: rest) = applyOps (UpsertActor g i n) rest from rfl,
        ih, show lastWm (.upsertActor i n :: rest) = lastWm rest from rfl,
        (upsert_edges_lastPage g i n).2]
    | costarEdge a b m y t =>
      rw [show applyOps g (.costarEdge a b m y t :: rest)
          = applyOps (CreateCostarEdge g a b m y t) rest from rfl,
        ih, show lastWm (.costarEdge a b m y t :: rest) = lastWm rest from rfl,
        (createCostar_actors_lastPage g a b m y t).2]
    | setWatermark q =>
      rw [show applyOps g (.setWatermark q :: rest)
          = applyOps (SetLastIngestedPage g q) rest from rfl, ih, lastWm]
      cases lastWm rest <;> rfl

theorem noWm_lastWm {p : List StoreOp} (h : noWm p = true) : lastWm p = none := by
  induction p with
  | nil => rfl
  | cons op rest ih =>
    cases op with
    | upsertActor i n => exact ih h
    | costarEdge a b m y t => exact ih h
    | setWatermark q => cases h

theorem noWm_take {p : List StoreOp} (h : noWm p = true) (c : Nat) : noWm (p.take c) = true := by
  induction p generalizing c with
  | nil => cases c <;> rfl
  | cons op rest ih =>
    cases c with
    | zero => rfl
    | succ c' =>
      cases op with
      | upsertActor i n => exact ih h c'
      | costarEdge a b m y t => exact ih h c'
      | setWatermark q => cases h

theorem noWm_append {l₁ l₂ : List StoreOp} (h1 : noWm l₁ = true) (h2 : noWm l₂ = true) :
    noWm (l₁ ++ l₂) = true := by
  induction l₁ with
  | nil => exact h2
  | cons op rest ih =>
    cases op with
    | upsertActor i n => exact ih h1
    | costarEdge a b m y t => exact ih h1
    | setWatermark q => cases h1

/-! ### Replaying an operation list over its own result -/

theorem replay_pointwise :
    ∀ (p : List StoreOp) (t : GraphState) (keys : List Int),
      coveredFrom keys p = true →
      (∀ k ∈ keys, actorExists t k = true) →
      (∀ k ∈ upsertIds p, actorExists t k = true) →
      (∀ K ∈ edgeOpKeys p, K ∈ edgeKeys t) →
      (applyOps t p).actors.length = t.actors.length ∧
      (∀ i a, t.actors.get? i = some a → (applyOps t p).actors.get? i =
        some ⟨a.tmdbID, (lastUpsert p a.tmdbID).getD a.name⟩) ∧
      (applyOps t p).edges.length = t.edges.length ∧
      (∀ i e, t.edges.get? i = some e → (applyOps t p).edges.get? i =
        some ⟨e.src, e.dst, e.movieID,
          ((lastEdgeW p e.src e.dst e.movieID).getD (e.title, e.year)).1,
          ((lastEdgeW p e.src e.dst e.movieID).getD (e.title, e.year)).2⟩) := by
  intro p
  induction p with
  | nil =>
    intro t keys _ _ _ _
    exact ⟨rfl, fun i a h => h, rfl, fun i e h => h⟩
  | cons op rest ih =>
    intro t keys hcov hkeys hups heks
    cases op with
    | upsertActor idU nU =>
      have hpres : actorExists t idU = true :=
        hups idU (by rw [upsertIds]; exact List.mem_cons_self _ _)
      have hkeys' : ∀ k ∈ idU :: keys, actorExists (UpsertActor t idU nU) k = true := by
        intro k hk
        rcases List.mem_cons.mp hk with rfl | hk'
        · exact actorExists_upsert_self t k nU
        · exact actorExists_iff_mem.mpr (actorIds_applyOp_mono (.upsertActor idU nU)
            (actorExists_iff_mem.mp (hkeys k hk')))
      have hups' : ∀ k ∈ upsertIds rest, actorExists (UpsertActor t idU nU) k = true := by
        intro k hk
        exact actorExists_iff_mem.mpr (actorIds_applyOp_mono (.upsertActor idU nU)
          (actorExists_iff_mem.mp (hups k (by rw [upsertIds]; exact List.mem_cons_of_mem _ hk))))
      have heks' : ∀ K ∈ edgeOpKeys rest, K ∈ edgeKeys (UpsertActor t idU nU) := by
        intro K hK
        rw [edgeKeys_upsert]
        exact heks K hK
      obtain ⟨ih1, ih2, ih3, ih4⟩ := ih (UpsertActor t idU nU) (idU :: keys) hcov hkeys' hups' heks'
      have hact : (UpsertActor t idU nU).actors
          = t.actors.map (fun a => if a.tmdbID == idU then { a with name := nU } else a) :=
        upsert_actors_of_exists nU hpres
      refine ⟨?_, ?_, ?_, ?_⟩
      · show (applyOps (UpsertActor t idU nU) rest).actors.length = _
        rw [ih1, hact, List.length_map]
      · intro i a hget
        show (applyOps (UpsertActor t idU nU) rest).actors.get? i = _
        have hget' : (UpsertActor t idU nU).actors.get? i
            = some (if a.tmdbID == idU then { a with name := nU } else a) := by
          rw [hact, List.get?_map, hget]
          rfl
        rw [ih2 i _ hget']
        have hid : (if a.tmdbID == idU then ({ a with name := nU } : Actor) else a).tmdbID
            = a.tmdbID := by
          split <;> rfl
        rw [hid]
        have hname : (lastUpsert rest a.tmdbID).getD
              (if a.tmdbID == idU then ({ a with name := nU } : Actor) else a).name
            = (lastUpsert (.upsertActor idU nU :: rest) a.tmdbID).getD a.name := by
          rw [lastUpsert]
          cases hcase : lastUpsert rest a.tmdbID with
          | some nm => rfl
          | none =>
            by_cases hik : (idU == a.tmdbID) = true
            · rw [if_pos hik]
              have h2 : (a.tmdbID == idU) = true := by
                simp only [beq_iff_eq] at hik ⊢
                exact hik.symm
              rw [if_pos h2]
              rfl
            · rw [if_neg hik]
              have h2 : ¬ (a.tmdbID == idU) = true := by
                simp only [beq_iff_eq] at hik ⊢
                exact fun h => hik h.symm
              rw [if_neg h2]
        rw [hname]
      · show (applyOps (UpsertActor t idU nU) rest).edges.length = _
        rw [ih3, (upsert_edges_lastPage t idU nU).1]
      · intro i e hget
        show (applyOps (UpsertActor t idU nU) rest).edges.get? i = _
        have hget' : (UpsertActor t idU nU).edges.get? i = some e := by
          rw [(upsert_edges_lastPage t idU nU).1]
          exact hget
        rw [ih4 i e hget']
        rfl
    | costarEdge a b m y tt =>
      rw [coveredFrom] at hcov
      simp only [Bool.and_eq_true] at hcov
      obtain ⟨⟨hca, hcb⟩, hcr⟩ := hcov
      have ha : actorExists t a = true := hkeys a (List.elem_iff.mp hca)
      have hb : actorExists t b = true := hkeys b (List.elem_iff.mp hcb)
      have hk : (a, b, m) ∈ edgeKeys t :=
        heks (a, b, m) (by rw [edgeOpKeys]; exact List.mem_cons_self _ _)
      have hact' : (CreateCostarEdge t a b m y tt).actors = t.actors :=
        (createCostar_actors_lastPage t a b m y tt).1
      have hedg : (CreateCostarEdge t a b m y tt).edges
          = t.edges.map (fun e => if edgeMatches e a b m then { e with title := tt, year := y } else e) :=
        createCostar_exec y tt ha hb hk
      have hkeys' : ∀ k ∈ keys, actorExists (CreateCostarEdge t a b m y tt) k = true := by
        intro k hk'
        exact actorExists_iff_mem.mpr (actorIds_applyOp_mono (.costarEdge a b m y tt)
          (actorExists_iff_mem.mp (hkeys k hk')))
      have hups' : ∀ k ∈ upsertIds rest, actorExists (CreateCostarEdge t a b m y tt) k = true := by
        intro k hk'
        exact actorExists_iff_mem.mpr (actorIds_applyOp_mono (.costarEdge a b m y tt)
          (actorExists_iff_mem.mp (hups k hk')))
      have heks' : ∀ K ∈ edgeOpKeys rest, K ∈ edgeKeys (CreateCostarEdge t a b m y tt) := by
        intro K hK
        exact edgeKeys_costar_mono a b m y tt
          (heks K (by rw [edgeOpKeys]; exact List.mem_cons_of_mem _ hK))
      obtain ⟨ih1, ih2, ih3, ih4⟩ := ih (CreateCostarEdge t a b m y tt) keys hcr hkeys' hups' heks'
      refine ⟨?_, ?_, ?_, ?_⟩
      · show (applyOps (CreateCostarEdge t a b m y tt) rest).actors.length = _
        rw [ih1, hact']
      · intro i a' hget
        show (applyOps (CreateCostarEdge t a b m y tt) rest).actors.get? i = _
        have hget' : (CreateCostarEdge t a b m y tt).actors.get? i = some a' := by
          rw [hact']
          exact hget
        rw [ih2 i a' hget']
        rfl
      · show (applyOps (CreateCostarEdge t a b m y tt) rest).edges.length = _
        rw [ih3, hedg, List.length_map]
      · intro i e hget
        show (applyOps (CreateCostarEdge t a b m y tt) rest).edges.get? i = _
        have hget' : (CreateCostarEdge t a b m y tt).edges.get? i
            = some (if edgeMatches e a b m then { e with title := tt, year := y } else e) := by
          rw [hedg, List.get?_map, hget]
          rfl
        rw [ih4 i _ hget']
        have hsrc : (if edgeMatches e a b m then ({ e with title := tt, year := y } : CostarEdge) else e).src
            = e.src := by split <;> rfl
        have hdst : (if edgeMatches e a b m then ({ e with title := tt, year := y } : CostarEdge) else e).dst
            = e.dst := by split <;> rfl
        have hmid : (if edgeMatches e a b m then ({ e with title := tt, year := y } : CostarEdge) else e).movieID
            = e.movieID := by split <;> rfl
        rw [hsrc, hdst, hmid]
        have hsymm : ∀ (x z : Int), (x == z) = (z == x) := by
          intro x z
          by_cases h : x = z
          · simp [h]
          · simp [h, Ne.symm h]
        have hbeq : ((a == e.src && b == e.dst) && m == e.movieID) = edgeMatches e a b m := by
          rw [edgeMatches, hsymm a e.src, hsymm b e.dst, hsymm m e.movieID]
        have hattrs : (lastEdgeW rest e.src e.dst e.movieID).getD
              ((if edgeMatches e a b m then ({ e with title := tt, year := y } : CostarEdge) else e).title,
               (if edgeMatches e a b m then ({ e with title := tt, year := y } : CostarEdge) else e).year)
            = (lastEdgeW (.costarEdge a b m y tt :: rest) e.src e.dst e.movieID).getD
              (e.title, e.year) := by
          rw [lastEdgeW]
          cases hcase : lastEdgeW rest e.src e.dst e.movieID with
          | some r => rfl
          | none =>
            by_cases hmk : edgeMatches e a b m = true
            · rw [if_pos hmk, if_pos (by rw [hbeq]; exact hmk)]
              rfl
            · rw [if_neg hmk, if_neg (fun h => hmk (by rw [← hbeq]; exact h))]
        rw [show ((lastEdgeW (.costarEdge a b m y tt :: rest) e.src e.dst e.movieID).getD
            (e.title, e.year)) = ((lastEdgeW rest e.src e.dst e.movieID).getD
              ((if edgeMatches e a b m then ({ e with title := tt, year := y } : CostarEdge) else e).title,
               (if edgeMatches e a b m then ({ e with title := tt, year := y } : CostarEdge) else e).year))
          from hattrs.symm]
    | setWatermark q =>
      obtain ⟨ih1, ih2, ih3, ih4⟩ := ih (SetLastIngestedPage t q) keys hcov
        (fun k hk => hkeys k hk) (fun k hk => hups k hk) (fun K hK => heks K hK)
      exact ⟨ih1, fun i a h => ih2 i a h, ih3, fun i e h => ih4 i e h⟩

theorem graphState_eq {g h : GraphState} (ha : g.actors = h.actors)
    (he : g.edges = h.edges) (hl : g.lastPage = h.lastPage) : g = h := by
  cases g
  cases h
  simp only [GraphState.mk.injEq]
  exact ⟨ha, he, hl⟩

theorem replay_fix (s : GraphState) (p : List StoreOp)
    (hcov : coveredFrom (actorIds s) p = true) :
    applyOps (applyOps s p) p = applyOps s p := by
  have hkeys : ∀ k ∈ actorIds s, actorExists (applyOps s p) k = true := fun k hk =>
    actorExists_iff_mem.mpr (actorIds_applyOps_mono p s hk)
  have hups : ∀ k ∈ upsertIds p, actorExists (applyOps s p) k = true := fun k hk =>
    upsertIds_applyOps_mem p s k hk
  have heks : ∀ K ∈ edgeOpKeys p, K ∈ edgeKeys (applyOps s p) :=
    edgeOpKeys_applyOps_mem p s (actorIds s) hcov (fun k hk => actorExists_iff_mem.mpr hk)
  obtain ⟨hal, hap, hel, hep⟩ :=
    replay_pointwise p (applyOps s p) (actorIds s) hcov hkeys hups heks
  refine graphState_eq ?_ ?_ ?_
  · refine List.ext_get? (fun i => ?_)
    cases hgi : (applyOps s p).actors.get? i with
    | none =>
      have hlen : (applyOps s p).actors.length ≤ i := List.get?_eq_none.mp hgi
      have hnone : (applyOps (applyOps s p) p).actors.get? i = none := by
        rw [List.get?_eq_none, hal]
        exact hlen
      rw [hnone]
    | some a =>
      rw [hap i a hgi]
      have hmem : a ∈ (applyOps s p).actors := List.get?_mem hgi
      cases hcase : lastUpsert p a.tmdbID with
      | none => rfl
      | some nm =>
        have hname := lastUpsert_applied p s a hmem nm hcase
        simp only [Option.getD_some]
        rw [← hname]
  · refine List.ext_get? (fun i => ?_)
    cases hgi : (applyOps s p).edges.get? i with
    | none =>
      have hlen : (applyOps s p).edges.length ≤ i := List.get?_eq_none.mp hgi
      have hnone : (applyOps (applyOps s p) p).edges.get? i = none := by
        rw [List.get?_eq_none, hel]
        exact hlen
      rw [hnone]
    | some e =>
      rw [hep i e hgi]
      have hmem : e ∈ (applyOps s p).edges := List.get?_mem hgi
      cases hcase : lastEdgeW p e.src e.dst e.movieID with
      | none => rfl
      | some r =>
        have hattr := lastEdgeW_applied p s (actorIds s) hcov
          (fun k hk => actorExists_iff_mem.mpr hk) e hmem r hcase
        simp only [Option.getD_some]
        rw [← hattr.1, ← hattr.2]
  · rw [lastPage_applyOps p (applyOps s p)]
    cases hcase : lastWm p with
    | none => rfl
    | some w =>
      rw [lastPage_applyOps p s, hcase]

theorem applyOps_take_absorb (s : GraphState) (ops : List StoreOp) (c : Nat)
    (hcov : coveredFrom (actorIds s) (ops.take c) = true) :
    applyOps (applyOps s (ops.take c)) ops = applyOps s ops := by
  have hsplit : ops = ops.take c ++ ops.drop c := (List.take_append_drop c ops).symm
  calc applyOps (applyOps s (ops.take c)) ops
      = applyOps (applyOps s (ops.take c)) (ops.take c ++ ops.drop c) := by rw [← hsplit]
    _ = applyOps (applyOps (applyOps s (ops.take c)) (ops.take c)) (ops.drop c) :=
        applyOps_append _ _ _
    _ = applyOps (applyOps s (ops.take c)) (ops.drop c) := by
        rw [replay_fix s (ops.take c) hcov]
    _ = applyOps s (ops.take c ++ ops.drop c) := (applyOps_append _ _ _).symm
    _ = applyOps s ops := by rw [← hsplit]

/-! ### Coverage of the pipeline's operation lists -/

theorem coveredFrom_append_of_all :
    ∀ (l₁ l₂ : List StoreOp) (keys : List Int),
      coveredFrom keys l₁ = true → (∀ keys', coveredFrom keys' l₂ = true) →
      coveredFrom keys (l₁ ++ l₂) = true := by
  intro l₁
  induction l₁ with
  | nil => intro l₂ keys _ h2; exact h2 keys
  | cons op rest ih =>
    intro l₂ keys h1 h2
    cases op with
    | upsertActor i n => exact ih l₂ (i :: keys) h1 h2
    | costarEdge a b m y t =>
      rw [List.cons_append, coveredFrom]
      rw [coveredFrom] at h1
      simp only [Bool.and_eq_true] at h1 ⊢
      exact ⟨h1.1, ih l₂ keys h1.2 h2⟩
    | setWatermark q => exact ih l₂ keys h1 h2

theorem coveredFrom_take :
    ∀ (p : List StoreOp) (keys : List Int) (c : Nat),
      coveredFrom keys p = true → coveredFrom keys (p.take c) = true := by
  intro p
  induction p with
  | nil => intro keys c _; cases c <;> rfl
  | cons op rest ih =>
    intro keys c hc
    cases c with
    | zero => rfl
    | succ c' =>
      cases op with
      | upsertActor i n => exact ih (i :: keys) c' hc
      | costarEdge a b m y t =>
        rw [List.take_succ_cons, coveredFrom]
        rw [coveredFrom] at hc
        simp only [Bool.and_eq_true] at hc ⊢
        exact ⟨hc.1, ih keys c' hc.2⟩
      | setWatermark q => exact ih keys c' hc

theorem coveredFrom_costarMap (movie : Movie) (aID : Int) :
    ∀ (rest : List Actor) (keys : List Int) (l₂ : List StoreOp), aID ∈ keys →
      (∀ b ∈ rest, b.tmdbID ∈ keys) → coveredFrom keys l₂ = true →
      coveredFrom keys
        ((rest.map (fun b => StoreOp.costarEdge aID b.tmdbID movie.tmdbID movie.year movie.title))
          ++ l₂) = true := by
  intro rest
  induction rest with
  | nil => intro keys l₂ _ _ h2; exact h2
  | cons b rs ih =>
    intro keys l₂ ha hb h2
    rw [List.map_cons, List.cons_append, coveredFrom]
    simp only [Bool.and_eq_true]
    exact ⟨⟨List.elem_iff.mpr ha, List.elem_iff.mpr (hb b (List.mem_cons_self _ _))⟩,
      ih keys l₂ ha (fun x hx => hb x (List.mem_cons_of_mem _ hx)) h2⟩

theorem coveredFrom_pairEdgeOps (movie : Movie) :
    ∀ (cast : List Actor) (keys : List Int), (∀ a ∈ cast, a.tmdbID ∈ keys) →
      coveredFrom keys (pairEdgeOps movie cast) = true := by
  intro cast
  induction cast with
  | nil => intro keys _; rfl
  | cons a rest ih =>
    intro keys hmem
    rw [pairEdgeOps]
    exact coveredFrom_costarMap movie a.tmdbID rest keys (pairEdgeOps movie rest)
      (hmem a (List.mem_cons_self _ _)) (fun b hb => hmem b (List.mem_cons_of_mem _ hb))
      (ih keys (fun b hb => hmem b (List.mem_cons_of_mem _ hb)))

theorem coveredFrom_upsert_then :
    ∀ (cast : List Actor) (keys : List Int) (l₂ : List StoreOp),
      (∀ keys', (∀ a ∈ cast, a.tmdbID ∈ keys') → (∀ k ∈ keys, k ∈ keys') →
        coveredFrom keys' l₂ = true) →
      coveredFrom keys
        ((cast.map (fun a => StoreOp.upsertActor a.tmdbID a.name)) ++ l₂) = true := by
  intro cast
  induction cast with
  | nil =>
    intro keys l₂ h
    exact h keys (fun a ha => absurd ha (List.not_mem_nil a)) (fun k hk => hk)
  | cons a rest ih =>
    intro keys l₂ h
    rw [List.map_cons, List.cons_append]
    show coveredFrom (a.tmdbID :: keys) (rest.map _ ++ l₂) = true
    refine ih (a.tmdbID :: keys) l₂ ?_
    intro keys' hall hsub
    refine h keys' ?_ ?_
    · intro x hx
      rcases List.mem_cons.mp hx with rfl | hx'
      · exact hsub x.tmdbID (List.mem_cons_self _ _)
      · exact hall x hx'
    · intro k hk
      exact hsub k (List.mem_cons_of_mem _ hk)

theorem coveredFrom_ingest (movie : Movie) (cast : List Actor) (keys : List Int) :
    coveredFrom keys (ingestMovieCastOps movie cast) = true := by
  rw [ingestMovieCastOps]
  refine coveredFrom_upsert_then cast keys (pairEdgeOps movie cast) ?_
  intro keys' hall _
  exact coveredFrom_pairEdgeOps movie cast keys' hall

theorem coveredFrom_movieOps (P : Provider) (m : Movie) (keys : List Int) :
    coveredFrom keys (movieOps P m) = true := by
  rw [movieOps]
  cases P.movieCast m.tmdbID with
  | none => rfl
  | some cast => exact coveredFrom_ingest m cast keys

theorem coveredFrom_pageMovieOps (P : Provider) :
    ∀ (movies : List Movie) (keys : List Int),
      coveredFrom keys (pageMovieOps P movies) = true := by
  intro movies
  induction movies with
  | nil => intro keys; rfl
  | cons mv rest ih =>
    intro keys
    rw [pageMovieOps, List.flatMap_cons]
    exact coveredFrom_append_of_all (movieOps P mv) (rest.flatMap (movieOps P)) keys
      (coveredFrom_movieOps P mv keys) (fun keys' => ih keys')

/-! ### The pipeline's movie operations never touch the watermark -/

theorem noWm_costarMap (movie : Movie) (aID : Int) :
    ∀ rest : List Actor, noWm (rest.map (fun b =>
      StoreOp.costarEdge aID b.tmdbID movie.tmdbID movie.year movie.title)) = true := by
  intro rest
  induction rest with
  | nil => rfl
  | cons b rs ih => exact ih

theorem noWm_pairEdgeOps (movie : Movie) :
    ∀ cast, noWm (pairEdgeOps movie cast) = true := by
  intro cast
  induction cast with
  | nil => rfl
  | cons a rest ih =>
    rw [pairEdgeOps]
    exact noWm_append (noWm_costarMap movie a.tmdbID rest) ih

theorem noWm_upsertMap : ∀ cast : List Actor,
    noWm (cast.map (fun a => StoreOp.upsertActor a.tmdbID a.name)) = true := by
  intro cast
  induction cast with
  | nil => rfl
  | cons a rest ih => exact ih

theorem noWm_ingest (movie : Movie) (cast : List Actor) :
    noWm (ingestMovieCastOps movie cast) = true := by
  rw [ingestMovieCastOps]
  exact noWm_append (noWm_upsertMap cast) (noWm_pairEdgeOps movie cast)

theorem noWm_movieOps (P : Provider) (m : Movie) : noWm (movieOps P m) = true := by
  rw [movieOps]
  cases P.movieCast m.tmdbID with
  | none => rfl
  | some cast => exact noWm_ingest m cast

theorem noWm_pageMovieOps (P : Provider) :
    ∀ movies, noWm (pageMovieOps P movies) = true := by
  intro movies
  induction movies with
  | nil => rfl
  | cons mv rest ih =>
    rw [pageMovieOps, List.flatMap_cons]
    exact noWm_append (noWm_movieOps P mv) ih

theorem lastPage_noWm {g : GraphState} {p : List StoreOp} (h : noWm p = true) :
    (applyOps g p).lastPage = g.lastPage := by
  rw [lastPage_applyOps, noWm_lastWm h]

theorem lastPage_commit (g : GraphState) (ops : List StoreOp) (page : Nat) :
    (applyOps g (ops ++ [.setWatermark page])).lastPage = some page := by
  rw [applyOps_append]
  rfl

/-! ### Lemmas about the page-loop fold -/

theorem pageStep_success (P : Provider) (s : RunState) (page : Nat) (movies : List Movie)
    (h : page ≤ s.lastP) (hm : P.pageMovies page = some movies) :
    pageStep P s page = ⟨applyOps s.g (pageMovieOps P movies ++ [.setWatermark page]),
      min P.totalPages s.lastP, s.fetched ++ [page], s.committed ++ [page]⟩ := by
  rw [pageStep, if_pos h, hm]

theorem pageStep_fail (P : Provider) (s : RunState) (page : Nat)
    (h : page ≤ s.lastP) (hm : P.pageMovies page = none) :
    pageStep P s page = { s with fetched := s.fetched ++ [page] } := by
  rw [pageStep, if_pos h, hm]

theorem pageStep_skip (P : Provider) (s : RunState) (page : Nat)
    (h : ¬ page ≤ s.lastP) : pageStep P s page = s := by
  rw [pageStep, if_neg h]

theorem pageStep_lastP_char (P : Provider) (s : RunState) (q : Nat) :
    (pageStep P s q).lastP = s.lastP ∨ (pageStep P s q).lastP = min P.totalPages s.lastP := by
  rw [pageStep]
  by_cases h : q ≤ s.lastP
  · rw [if_pos h]
    cases P.pageMovies q with
    | none => exact Or.inl rfl
    | some movies => exact Or.inr rfl
  · rw [if_neg h]
    exact Or.inl rfl

theorem foldl_pageStep_lastP_le (P : Provider) :
    ∀ (l : List Nat) (s : RunState), (l.foldl (pageStep P) s).lastP ≤ s.lastP := by
  intro l
  induction l with
  | nil => intro s; exact le_refl _
  | cons q rest ih =>
    intro s
    rw [List.foldl_cons]
    have hstep : (pageStep P s q).lastP ≤ s.lastP := by
      rcases pageStep_lastP_char P s q with h | h
      · rw [h]
      · rw [h]
        exact Nat.min_le_right _ _
    exact Nat.le_trans (ih (pageStep P s q)) hstep

theorem foldl_pageStep_lastP_char (P : Provider) :
    ∀ (l : List Nat) (s : RunState),
      (l.foldl (pageStep P) s).lastP = s.lastP ∨
      (l.foldl (pageStep P) s).lastP = min P.totalPages s.lastP := by
  intro l
  induction l with
  | nil => intro s; exact Or.inl rfl
  | cons q rest ih =>
    intro s
    have hmin : min P.totalPages (min P.totalPages s.lastP) = min P.totalPages s.lastP := by
      omega
    rcases ih (pageStep P s q) with h1 | h1 <;> rcases pageStep_lastP_char P s q with h2 | h2
    · exact Or.inl (by rw [List.foldl_cons, h1, h2])
    · exact Or.inr (by rw [List.foldl_cons, h1, h2])
    · exact Or.inr (by rw [List.foldl_cons, h1, h2])
    · exact Or.inr (by rw [List.foldl_cons, h1, h2, hmin])

theorem foldl_pageStep_g_lastP (P : Provider) :
    ∀ (l : List Nat) (g : GraphState) (lp : Nat) (f₁ c₁ f₂ c₂ : List Nat),
      (l.foldl (pageStep P) ⟨g, lp, f₁, c₁⟩).g = (l.foldl (pageStep P) ⟨g, lp, f₂, c₂⟩).g ∧
      (l.foldl (pageStep P) ⟨g, lp, f₁, c₁⟩).lastP
        = (l.foldl (pageStep P) ⟨g, lp, f₂, c₂⟩).lastP := by
  intro l
  induction l with
  | nil => intro g lp f₁ c₁ f₂ c₂; exact ⟨rfl, rfl⟩
  | cons q rest ih =>
    intro g lp f₁ c₁ f₂ c₂
    rw [List.foldl_cons, List.foldl_cons]
    by_cases h : q ≤ lp
    · cases hq : P.pageMovies q with
      | none =>
        rw [pageStep_fail P ⟨g, lp, f₁, c₁⟩ q h hq, pageStep_fail P ⟨g, lp, f₂, c₂⟩ q h hq]
        exact ih g lp (f₁ ++ [q]) c₁ (f₂ ++ [q]) c₂
      | some movies =>
        rw [pageStep_success P ⟨g, lp, f₁, c₁⟩ q movies h hq,
          pageStep_success P ⟨g, lp, f₂, c₂⟩ q movies h hq]
        exact ih _ _ _ _ _ _
    · rw [pageStep_skip P ⟨g, lp, f₁, c₁⟩ q h, pageStep_skip P ⟨g, lp, f₂, c₂⟩ q h]
      exact ih g lp f₁ c₁ f₂ c₂

theorem pageStep_committed_char (P : Provider) (s : RunState) (p : Nat) :
    ∀ x ∈ (pageStep P s p).committed, x ∈ s.committed ∨ (x = p ∧ ∃ mv, P.pageMovies p = some mv) := by
  intro x hx
  rw [pageStep] at hx
  by_cases h : p ≤ s.lastP
  · rw [if_pos h] at hx
    cases hq : P.pageMovies p with
    | none =>
      rw [hq] at hx
      exact Or.inl hx
    | some movies =>
      rw [hq] at hx
      rcases List.mem_append.mp hx with hx' | hx'
      · exact Or.inl hx'
      · exact Or.inr ⟨List.mem_singleton.mp hx', movies, rfl⟩
  · rw [if_neg h] at hx
    exact Or.inl hx

theorem foldl_pageStep_committed (P : Provider) :
    ∀ (l : List Nat) (s : RunState) (x : Nat),
      x ∈ (l.foldl (pageStep P) s).committed →
      x ∈ s.committed ∨ (x ∈ l ∧ ∃ mv, P.pageMovies x = some mv) := by
  intro l
  induction l with
  | nil => intro s x hx; exact Or.inl hx
  | cons q rest ih =>
    intro s x hx
    rcases ih (pageStep P s q) x hx with hx' | hx'
    · rcases pageStep_committed_char P s q x hx' with h | h
      · exact Or.inl h
      · obtain ⟨hxq, mv, hmv⟩ := h
        subst hxq
        exact Or.inr ⟨List.mem_cons_self _ _, mv, hmv⟩
    · exact Or.inr ⟨List.mem_cons_of_mem _ hx'.1, hx'.2⟩

theorem pageStep_fetched_mono (P : Provider) (s : RunState) (p : Nat) :
    ∀ x ∈ s.fetched, x ∈ (pageStep P s p).fetched := by
  intro x hx
  rw [pageStep]
  by_cases h : p ≤ s.lastP
  · rw [if_pos h]
    cases P.pageMovies p with
    | none => exact List.mem_append_left _ hx
    | some movies => exact List.mem_append_left _ hx
  · rw [if_neg h]
    exact hx

theorem foldl_pageStep_fetched_mono (P : Provider) :
    ∀ (l : List Nat) (s : RunState) (x : Nat),
      x ∈ s.fetched → x ∈ (l.foldl (pageStep P) s).fetched := by
  intro l
  induction l with
  | nil => intro s x hx; exact hx
  | cons q rest ih =>
    intro s x hx
    exact ih (pageStep P s q) x (pageStep_fetched_mono P s q x hx)

theorem pageStep_fetched_self (P : Provider) (s : RunState) (p : Nat) (h : p ≤ s.lastP) :
    p ∈ (pageStep P s p).fetched := by
  rw [pageStep, if_pos h]
  cases P.pageMovies p with
  | none => exact List.mem_append_right _ (List.mem_singleton.mpr rfl)
  | some movies => exact List.mem_append_right _ (List.mem_singleton.mpr rfl)

theorem pageStep_wm_bound (P : Provider) (s : RunState) (q stop : Nat) (hq : q < stop)
    (hs : ∀ w, s.g.lastPage = some w → w < stop) :
    ∀ w, (pageStep P s q).g.lastPage = some w → w < stop := by
  intro w hw
  rw [pageStep] at hw
  by_cases h : q ≤ s.lastP
  · rw [if_pos h] at hw
    cases hm : P.pageMovies q with
    | none =>
      rw [hm] at hw
      exact hs w hw
    | some movies =>
      rw [hm] at hw
      have hcommit : (applyOps s.g (pageMovieOps P movies ++ [.setWatermark q])).lastPage
          = some q := lastPage_commit s.g (pageMovieOps P movies) q
      rw [show ((⟨applyOps s.g (pageMovieOps P movies ++ [.setWatermark q]),
        min P.totalPages s.lastP, s.fetched ++ [q], s.committed ++ [q]⟩ : RunState)).g
        = applyOps s.g (pageMovieOps P movies ++ [.setWatermark q]) from rfl, hcommit] at hw
      have : q = w := by simpa using hw
      omega
  · rw [if_neg h] at hw
    exact hs w hw

theorem foldl_pageStep_wm_bound (P : Provider) (stop : Nat) :
    ∀ (l : List Nat) (s : RunState), (∀ q ∈ l, q < stop) →
      (∀ w, s.g.lastPage = some w → w < stop) →
      ∀ w, ((l.foldl (pageStep P) s).g).lastPage = some w → w < stop := by
  intro l
  induction l with
  | nil => intro s _ hs w hw; exact hs w hw
  | cons q rest ih =>
    intro s hl hs
    exact ih (pageStep P s q) (fun x hx => hl x (List.mem_cons_of_mem _ hx))
      (pageStep_wm_bound P s q stop (hl q (List.mem_cons_self _ _)) hs)

theorem pageStep_wm_char (P : Provider) (s : RunState) (q : Nat) :
    ∀ w, (pageStep P s q).g.lastPage = some w →
      s.g.lastPage = some w ∨ (w = q ∧ ∃ mv, P.pageMovies q = some mv) := by
  intro w hw
  rw [pageStep] at hw
  by_cases h : q ≤ s.lastP
  · rw [if_pos h] at hw
    cases hm : P.pageMovies q with
    | none =>
      rw [hm] at hw
      exact Or.inl hw
    | some movies =>
      rw [hm] at hw
      have hcommit : (applyOps s.g (pageMovieOps P movies ++ [.setWatermark q])).lastPage
          = some q := lastPage_commit s.g (pageMovieOps P movies) q
      rw [show ((⟨applyOps s.g (pageMovieOps P movies ++ [.setWatermark q]),
        min P.totalPages s.lastP, s.fetched ++ [q], s.committed ++ [q]⟩ : RunState)).g
        = applyOps s.g (pageMovieOps P movies ++ [.setWatermark q]) from rfl, hcommit] at hw
      have : q = w := by simpa using hw
      exact Or.inr ⟨this.symm, movies, rfl⟩
  · rw [if_neg h] at hw
    exact Or.inl hw

theorem foldl_pageStep_wm_char (P : Provider) :
    ∀ (l : List Nat) (s : RunState) (w : Nat),
      ((l.foldl (pageStep P) s).g).lastPage = some w →
      s.g.lastPage = some w ∨ (w ∈ l ∧ ∃ mv, P.pageMovies w = some mv) := by
  intro l
  induction l with
  | nil => intro s w hw; exact Or.inl hw
  | cons q rest ih =>
    intro s w hw
    rcases ih (pageStep P s q) w hw with hw' | hw'
    · rcases pageStep_wm_char P s q w hw' with h | h
      · exact Or.inl h
      · obtain ⟨hwq, mv, hmv⟩ := h
        subst hwq
        exact Or.inr ⟨List.mem_cons_self _ _, mv, hmv⟩
    · exact Or.inr ⟨List.mem_cons_of_mem _ hw'.1, hw'.2⟩

theorem range'_split (a n m : Nat) :
    List.range' a (n + m) = List.range' a n ++ List.range' (a + n) m := by
  have h := List.range'_append a n m 1
  simp only [one_mul] at h
  rw [Nat.add_comm m n] at h
  exact h.symm

theorem pageOps_none {P : Provider} {p : Nat} (h : P.pageMovies p = none) :
    pageOps P p = [] := by
  rw [pageOps, h]

theorem pageOps_some {P : Provider} {p : Nat} {movies : List Movie}
    (h : P.pageMovies p = some movies) : pageOps P p = pageMovieOps P movies := by
  rw [pageOps, h]

theorem noWm_movieOpsAt (P : Provider) (movies : List Movie) (i : Nat) :
    noWm (movieOpsAt P movies i) = true := by
  rw [movieOpsAt]
  cases hm : movies.get? i with
  | none => rfl
  | some m => exact noWm_movieOps P m

theorem cancelFinish_committed (P : Provider) (cp cm k : Nat) (t : RunState) :
    (cancelFinish P cp cm k t).committed = t.committed := by
  rw [cancelFinish]
  by_cases h : cp ≤ t.lastP
  · rw [if_pos h]
    cases hm : P.pageMovies cp with
    | none => rfl
    | some movies => rfl
  · rw [if_neg h]

theorem cancelFinish_lastPage (P : Provider) (cp cm k : Nat) (t : RunState) :
    (cancelFinish P cp cm k t).g.lastPage = t.g.lastPage := by
  rw [cancelFinish]
  by_cases h : cp ≤ t.lastP
  · rw [if_pos h]
    cases hm : P.pageMovies cp with
    | none => rfl
    | some movies =>
      show (applyOps t.g (pageMovieOps P (movies.take cm)
          ++ (movieOpsAt P movies cm).take k)).lastPage = t.g.lastPage
      exact lastPage_noWm (noWm_append (noWm_pageMovieOps P (movies.take cm))
        (noWm_take (noWm_movieOpsAt P movies cm) k))
  · rw [if_neg h]

theorem runCancelled_stop (P : Provider) (cp cm k page : Nat) (s : RunState)
    (h : ¬ page ≤ s.lastP) : runCancelled P cp cm k page s = s := by
  rw [runCancelled, dif_neg h]

theorem runCancelled_past (P : Provider) (cp cm k page : Nat) (s : RunState)
    (h : page ≤ s.lastP) (h2 : cp < page) : runCancelled P cp cm k page s = s := by
  rw [runCancelled, dif_pos h, if_pos h2]

theorem runCancelled_fail (P : Provider) (cp cm k page : Nat) (s : RunState)
    (h : page ≤ s.lastP) (h2 : ¬ cp < page) (hm : P.pageMovies page = none) :
    runCancelled P cp cm k page s
      = runCancelled P cp cm k (page + 1) { s with fetched := s.fetched ++ [page] } := by
  rw [runCancelled, dif_pos h, if_neg h2]
  simp only [hm]

theorem runCancelled_before (P : Provider) (cp cm k page : Nat) (s : RunState)
    (movies : List Movie) (h : page ≤ s.lastP) (h2 : page < cp)
    (hm : P.pageMovies page = some movies) :
    runCancelled P cp cm k page s
      = runCancelled P cp cm k (page + 1)
          ⟨applyOps s.g (pageMovieOps P movies ++ [StoreOp.setWatermark page]),
            min P.totalPages s.lastP, s.fetched ++ [page], s.committed ++ [page]⟩ := by
  rw [runCancelled, dif_pos h, if_neg (show ¬ cp < page by omega)]
  simp only [hm]
  rw [if_pos h2]

theorem runCancelled_at (P : Provider) (cp cm k : Nat) (s : RunState)
    (movies : List Movie) (h : cp ≤ s.lastP) (hm : P.pageMovies cp = some movies) :
    runCancelled P cp cm k cp s
      = { s with
            g := applyOps s.g (pageMovieOps P (movies.take cm)
              ++ (movieOpsAt P movies cm).take k),
            fetched := s.fetched ++ [cp] } := by
  rw [runCancelled, dif_pos h, if_neg (lt_irrefl cp)]
  simp only [hm]
  rw [if_neg (lt_irrefl cp)]

theorem foldl_pageStep_skip_all (P : Provider) :
    ∀ (l : List Nat) (s : RunState), (∀ q ∈ l, s.lastP < q) →
      l.foldl (pageStep P) s = s := by
  intro l
  induction l with
  | nil => intro s _; rfl
  | cons q rest ih =>
    intro s h
    rw [List.foldl_cons, pageStep_skip P s q (by
      have := h q (List.mem_cons_self q rest)
      omega)]
    exact ih s (fun x hx => h x (List.mem_cons_of_mem q hx))

/-- The cancelled driver loop from any page at or below the cancellation page is the
uninterrupted loop over the pages before the cancellation page, followed by the partial
work of the cancellation page itself. -/
theorem runCancelled_eq (P : Provider) (cp cm k : Nat) :
    ∀ (n page : Nat) (s : RunState), cp - page = n → page ≤ cp →
      runCancelled P cp cm k page s
        = cancelFinish P cp cm k ((List.range' page (cp - page)).foldl (pageStep P) s) := by
  intro n
  induction n with
  | zero =>
    intro page s hn hle
    have hpc : page = cp := by omega
    subst hpc
    rw [hn]
    show runCancelled P page cm k page s = cancelFinish P page cm k s
    by_cases hsl : page ≤ s.lastP
    · cases hm : P.pageMovies page with
      | none =>
        rw [runCancelled_fail P page cm k page s hsl (lt_irrefl page) hm]
        have hstop : runCancelled P page cm k (page + 1)
            { s with fetched := s.fetched ++ [page] }
            = { s with fetched := s.fetched ++ [page] } := by
          by_cases hsl2 : page + 1 ≤ ({ s with fetched := s.fetched ++ [page] } : RunState).lastP
          · exact runCancelled_past P page cm k (page + 1) _ hsl2 (Nat.lt_succ_self page)
          · exact runCancelled_stop P page cm k (page + 1) _ hsl2
        rw [hstop, cancelFinish, if_pos hsl]
        simp only [hm]
      | some movies =>
        rw [runCancelled_at P page cm k s movies hsl hm, cancelFinish, if_pos hsl]
        simp only [hm]
    · rw [runCancelled_stop P page cm k page s hsl, cancelFinish, if_neg hsl]
  | succ n ih =>
    intro page s hn hle
    have hlt : page < cp := by omega
    have hr : List.range' page (cp - page)
        = page :: List.range' (page + 1) (cp - (page + 1)) := by
      rw [show cp - page = (cp - (page + 1)) + 1 by omega]
      rfl
    by_cases hsl : page ≤ s.lastP
    · cases hm : P.pageMovies page with
      | none =>
        rw [runCancelled_fail P cp cm k page s hsl (by omega) hm, hr, List.foldl_cons,
          pageStep_fail P s page hsl hm]
        exact ih (page + 1) { s with fetched := s.fetched ++ [page] } (by omega) (by omega)
      | some movies =>
        rw [runCancelled_before P cp cm k page s movies hsl hlt hm, hr, List.foldl_cons,
          pageStep_success P s page movies hsl hm]
        exact ih (page + 1) _ (by omega) (by omega)
    · rw [runCancelled_stop P cp cm k page s hsl,
        foldl_pageStep_skip_all P (List.range' page (cp - page)) s (fun q hq => by
          have := List.mem_range'_1.mp hq
          omega),
        cancelFinish, if_neg (show ¬ cp ≤ s.lastP by omega)]

/-- A page that lies in the iterated range and below every possible shrink of the
effective last page is fetched by the loop. -/
theorem foldl_pageStep_fetches (P : Provider) :
    ∀ (l : List Nat) (s : RunState) (p : Nat), p ∈ l → p ≤ min P.totalPages s.lastP →
      p ∈ (l.foldl (pageStep P) s).fetched := by
  intro l
  induction l with
  | nil => intro s p hp _; exact absurd hp (List.not_mem_nil p)
  | cons q rest ih =>
    intro s p hp hbound
    rw [List.foldl_cons]
    rcases List.mem_cons.mp hp with rfl | hp'
    · refine foldl_pageStep_fetched_mono P rest _ p ?_
      refine pageStep_fetched_self P s p ?_
      omega
    · refine ih (pageStep P s q) p hp' ?_
      rcases pageStep_lastP_char P s q with h | h
      · rw [h]; omega
      · rw [h]; omega

/-- C4: for every cancellation page `cp` and every cancellation point — movie index `cm`
of that page still unprocessed, `k` store operations of it applied — the pipeline stops
without persisting a watermark for the in-flight page: every page in the committed-page
trace is an earlier, fully processed page, the cancellation page is never committed, and
the watermark record never holds a not-fully-processed page number (given that the
initial watermark, if any, is below the cancellation page). -/
theorem c4_no_partial_watermark (P : Provider) (g₀ : GraphState)
    (first lastFlag cp cm k : Nat) (final : RunState)
    (hfirst : first ≤ cp)
    (hg₀ : ∀ w, g₀.lastPage = some w → w < cp)
    (hcm : ∀ mvs, P.pageMovies cp = some mvs → cm < mvs.length)
    (hfin : final = runCancelled P cp cm k first ⟨g₀, lastFlag, [], []⟩) :
    (∀ q ∈ final.committed, q < cp) ∧ cp ∉ final.committed ∧
      ∀ w, final.g.lastPage = some w → w < cp := by
  have heq := runCancelled_eq P cp cm k (cp - first) first ⟨g₀, lastFlag, [], []⟩ rfl hfirst
  rw [heq] at hfin
  have hcomm : ∀ q ∈ final.committed, q < cp := by
    intro q hq
    rw [hfin, cancelFinish_committed] at hq
    rcases foldl_pageStep_committed P _ _ q hq with h | h
    · exact absurd h (List.not_mem_nil q)
    · have := List.mem_range'_1.mp h.1
      omega
  refine ⟨hcomm, fun hmem => absurd (hcomm cp hmem) (lt_irrefl cp), ?_⟩
  intro w hw
  rw [hfin, cancelFinish_lastPage] at hw
  refine foldl_pageStep_wm_bound P cp _ _ ?_ ?_ w hw
  · intro q hq
    have := List.mem_range'_1.mp hq
    omega
  · intro w' hw'
    exact hg₀ w' hw'

/-- C4 witness: cancellation at movie 0 of page 2 (after one of its store operations),
starting from an empty graph over pages 1-2: nothing ≥ page 2 is ever committed and the
final watermark stays below 2. -/
theorem c4_no_partial_watermark_witness :
    (1 ≤ 2) ∧
    ((∀ q ∈ (runCancelled pDemo 2 0 1 1 ⟨emptyGraph, 2, [], []⟩).committed, q < 2) ∧
      2 ∉ (runCancelled pDemo 2 0 1 1 ⟨emptyGraph, 2, [], []⟩).committed ∧
      ∀ w, (runCancelled pDemo 2 0 1 1 ⟨emptyGraph, 2, [], []⟩).g.lastPage = some w → w < 2) :=
  ⟨by decide,
   c4_no_partial_watermark pDemo emptyGraph 1 2 2 0 1 _
     (by decide)
     (fun w h => Option.noConfusion h)
     (fun mvs h => by
       have h' : some ([⟨102, "M2", 2000⟩] : List Movie) = some mvs := h
       injection h' with h''
       rw [← h'']
       decide)
     rfl⟩

/-- C5 counterexample to the original claim: with a catalog whose page 1 fetch fails and
whose page 2 succeeds, the run over pages 1-2 sets no watermark during page 1's
iteration but ends with watermark 2, so the next run with resume enabled starts at
watermark+1 = 3 and never refetches page 1 — the failed page is not reprocessed. -/
theorem c5_counterexample :
    pFailFirst.pageMovies 1 = none ∧
    (runRange pFailFirst 1 2 emptyGraph).g.lastPage = some 2 ∧
    1 ∉ (runRange pFailFirst
        (GetLastIngestedPage (runRange pFailFirst 1 2 emptyGraph).g + 1) 2
        (runRange pFailFirst 1 2 emptyGraph).g).fetched := by
  decide

/-- C5 (amended): if the catalog fetch of page `p` fails, no watermark is ever set to
`p` — neither during `p`'s iteration nor later (given the initial watermark is not `p`);
and the failed page is refetched by the next resumed run exactly when the run's final
watermark `w` stayed below `p` (and `p` lies within the resumed run's effective page
range); when a later successful page advances the watermark past `p`, the resumed run
starts beyond `p` and does not reprocess it. -/
theorem c5_failed_page (P : Provider) (g₀ : GraphState) (first lastFlag p w : Nat)
    (final : RunState)
    (hfail : P.pageMovies p = none)
    (hg₀ : g₀.lastPage ≠ some p)
    (hfin : final = runRange P first lastFlag g₀) :
    final.g.lastPage ≠ some p ∧
    (final.g.lastPage = some w → w < p → p ≤ min P.totalPages lastFlag →
      p ∈ (runRange P (w + 1) lastFlag final.g).fetched) := by
  constructor
  · intro hwm
    rw [hfin, runRange] at hwm
    rcases foldl_pageStep_wm_char P _ _ _ hwm with h | h
    · exact hg₀ h
    · obtain ⟨_, mv, hmv⟩ := h
      rw [hfail] at hmv
      exact Option.noConfusion hmv
  · intro hw hwp hpb
    rw [runRange]
    refine foldl_pageStep_fetches P _ _ p ?_ ?_
    · rw [List.mem_range'_1]
      omega
    · exact hpb

/-- C5 witness: page 2 of a three-page catalog fails while page 1 succeeds; the final
watermark is 1 < 2, and the resumed run starting at watermark+1 = 2 refetches the
failed page. -/
theorem c5_failed_page_witness :
    pTailFail.pageMovies 2 = none ∧
    emptyGraph.lastPage ≠ some 2 ∧
    ((runRange pTailFail 1 3 emptyGraph).g.lastPage ≠ some 2 ∧
      ((runRange pTailFail 1 3 emptyGraph).g.lastPage = some 1 → 1 < 2 →
        2 ≤ min pTailFail.totalPages 3 →
        2 ∈ (runRange pTailFail (1 + 1) 3 (runRange pTailFail 1 3 emptyGraph).g).fetched)) :=
  ⟨by decide, by decide,
   c5_failed_page pTailFail emptyGraph 1 3 2 1 _ (by decide) (by decide) rfl⟩

/-- C1: interrupt a run after page `N`'s watermark is persisted, with any prefix of the
next page's store operations already applied; re-running from the watermark (restart at
`N+1`) yields the same final graph — same Person nodes, same Costar relationships with
the same attributes, same watermark — as the uninterrupted run over the same pages, and
the interrupted page `N+1` is refetched.  `lastFlag ≤ P.totalPages` says the requested
range lies within the catalog, so the loop's effective last page never shrinks. -/
theorem c1_resume_equivalence (P : Provider) (g₀ : GraphState)
    (first lastFlag N c : Nat) (mid resumed full : RunState)
    (h1 : first ≤ N) (h2 : N < lastFlag) (hLF : lastFlag ≤ P.totalPages)
    (hmid : mid = (List.range' first (N + 1 - first)).foldl (pageStep P)
      ⟨g₀, lastFlag, [], []⟩)
    (hwm : mid.g.lastPage = some N)
    (hres : resumed = (List.range' (N + 1) (lastFlag - N)).foldl (pageStep P)
      ⟨applyOps mid.g ((pageOps P (N + 1)).take c), lastFlag, [], []⟩)
    (hfull : full = runRange P first lastFlag g₀) :
    resumed.g = full.g ∧ (N + 1) ∈ resumed.fetched := by
  obtain ⟨mG, mLP, mF, mC⟩ := mid
  have hlp : mLP = lastFlag := by
    have hm' : mLP = ((List.range' first (N + 1 - first)).foldl (pageStep P)
        ⟨g₀, lastFlag, [], []⟩).lastP := congrArg RunState.lastP hmid
    rcases foldl_pageStep_lastP_char P (List.range' first (N + 1 - first))
        ⟨g₀, lastFlag, [], []⟩ with h | h
    · rw [← hm'] at h
      exact h
    · rw [← hm'] at h
      have h' : mLP = min P.totalPages lastFlag := h
      omega
  rw [hlp] at hwm hmid hres
  have hfull2 : full = (List.range' (N + 1) (lastFlag - N)).foldl (pageStep P)
      ⟨mG, lastFlag, mF, mC⟩ := by
    rw [hfull, runRange,
      show lastFlag + 1 - first = (N + 1 - first) + (lastFlag - N) by omega,
      range'_split,
      show first + (N + 1 - first) = N + 1 by omega,
      List.foldl_append, ← hmid]
  have htail : List.range' (N + 1) (lastFlag - N)
      = (N + 1) :: List.range' (N + 2) (lastFlag - N - 1) := by
    rw [show lastFlag - N = (lastFlag - N - 1) + 1 by omega]
    rfl
  have hfetch : (N + 1) ∈ resumed.fetched := by
    rw [hres, htail, List.foldl_cons]
    refine foldl_pageStep_fetched_mono P _ _ _ ?_
    refine pageStep_fetched_self P _ _ ?_
    show N + 1 ≤ lastFlag
    omega
  refine ⟨?_, hfetch⟩
  rw [hres, hfull2, htail, List.foldl_cons, List.foldl_cons]
  cases hc : P.pageMovies (N + 1) with
  | none =>
    have hPO : pageOps P (N + 1) = [] := pageOps_none hc
    rw [hPO, List.take_nil]
    have hg : applyOps mG ([] : List StoreOp) = mG := rfl
    rw [hg]
    rw [pageStep_fail P ⟨mG, lastFlag, [], []⟩ (N + 1) (by show N + 1 ≤ lastFlag; omega) hc,
      pageStep_fail P ⟨mG, lastFlag, mF, mC⟩ (N + 1) (by show N + 1 ≤ lastFlag; omega) hc]
    exact (foldl_pageStep_g_lastP P (List.range' (N + 2) (lastFlag - N - 1))
      mG lastFlag ([] ++ [N + 1]) [] (mF ++ [N + 1]) mC).1
  | some mvs =>
    have hPO : pageOps P (N + 1) = pageMovieOps P mvs := pageOps_some hc
    rw [hPO]
    have habs : applyOps (applyOps mG ((pageMovieOps P mvs).take c))
        (pageMovieOps P mvs ++ [StoreOp.setWatermark (N + 1)])
        = applyOps mG (pageMovieOps P mvs ++ [StoreOp.setWatermark (N + 1)]) := by
      rw [applyOps_append, applyOps_append,
        applyOps_take_absorb mG (pageMovieOps P mvs) c
          (coveredFrom_take (pageMovieOps P mvs) (actorIds mG) c
            (coveredFrom_pageMovieOps P mvs (actorIds mG)))]
    have hS : pageStep P ⟨applyOps mG ((pageMovieOps P mvs).take c), lastFlag, [], []⟩ (N + 1)
        = ⟨applyOps (applyOps mG ((pageMovieOps P mvs).take c))
              (pageMovieOps P mvs ++ [StoreOp.setWatermark (N + 1)]),
            min P.totalPages lastFlag, [] ++ [N + 1], [] ++ [N + 1]⟩ :=
      pageStep_success P ⟨applyOps mG ((pageMovieOps P mvs).take c), lastFlag, [], []⟩
        (N + 1) mvs (by show N + 1 ≤ lastFlag; omega) hc
    have hT : pageStep P ⟨mG, lastFlag, mF, mC⟩ (N + 1)
        = ⟨applyOps mG (pageMovieOps P mvs ++ [StoreOp.setWatermark (N + 1)]),
            min P.totalPages lastFlag, mF ++ [N + 1], mC ++ [N + 1]⟩ :=
      pageStep_success P ⟨mG, lastFlag, mF, mC⟩
        (N + 1) mvs (by show N + 1 ≤ lastFlag; omega) hc
    rw [habs] at hS
    rw [hS, hT]
    exact (foldl_pageStep_g_lastP P (List.range' (N + 2) (lastFlag - N - 1))
      (applyOps mG (pageMovieOps P mvs ++ [StoreOp.setWatermark (N + 1)]))
      (min P.totalPages lastFlag) ([] ++ [N + 1]) ([] ++ [N + 1])
      (mF ++ [N + 1]) (mC ++ [N + 1])).1

/-- C1 witness: a two-page catalog ingested from the empty graph, interrupted after
page 1's watermark with one store operation of page 2 already applied; the resumed run
from page 2 reaches the same graph as the uninterrupted run over pages 1-2 and
refetches page 2. -/
theorem c1_resume_equivalence_witness :
    ((List.range' 1 1).foldl (pageStep pDemo) ⟨emptyGraph, 2, [], []⟩).g.lastPage = some 1 ∧
    (((List.range' 2 1).foldl (pageStep pDemo)
        ⟨applyOps ((List.range' 1 1).foldl (pageStep pDemo) ⟨emptyGraph, 2, [], []⟩).g
          ((pageOps pDemo 2).take 1), 2, [], []⟩).g = (runRange pDemo 1 2 emptyGraph).g ∧
      2 ∈ ((List.range' 2 1).foldl (pageStep pDemo)
        ⟨applyOps ((List.range' 1 1).foldl (pageStep pDemo) ⟨emptyGraph, 2, [], []⟩).g
          ((pageOps pDemo 2).take 1), 2, [], []⟩).fetched) :=
  ⟨by decide,
   c1_resume_equivalence pDemo emptyGraph 1 2 1 1 _ _ _
     (by decide) (by decide) (by decide) rfl (by decide) rfl rfl⟩

end Degrees
